import Mathlib

set_option maxRecDepth 40000

/-!
Shallow embedding of the PLT repository (src/cfg.rs, src/generator.rs):
context-free grammar model, the four simplification passes, the textual
rule parser and the bounded derivation generator.  Rust `HashSet`
iteration is modelled by the order of a `List`; the internal worklist
sets of the fixed-point computations are `Finset`s, mirroring the fact
that the Rust sets are genuine sets.  Rust panics are modelled by
explicit `none` / `PRes.panic` outcomes.
-/

namespace PLT

/-- Grammar symbol: terminal or nonterminal, each wrapping one character
(cfg.rs `Symbol`, `Terminal`, `Nonterminal`). -/
inductive Symbol
  | T : Char → Symbol
  | N : Char → Symbol
deriving DecidableEq, Repr

def Symbol.isNonterminal : Symbol → Bool
  | .N _ => true
  | .T _ => false

def Symbol.isTerminal (s : Symbol) : Bool := !s.isNonterminal

/-- `Symbol::new`: lowercase or numeric characters are terminals,
everything else is a nonterminal. -/
def Symbol.new (c : Char) : Symbol :=
  if c.isLower || c.isDigit then .T c else .N c

/-- A production `left -> right` (cfg.rs `Production`); an empty `right`
is an epsilon production. -/
structure Production where
  left : Char
  right : List Symbol
deriving DecidableEq, Repr

/-- A grammar: start symbol plus productions.  The Rust `HashSet` of
productions is modelled as a list whose order stands in for the set's
iteration order; all pass results are compared as sets. -/
structure CFG where
  start : Char
  productions : List Production
deriving DecidableEq, Repr

/-- The nonterminal characters occurring in a right-hand side. -/
def rightNonterms (p : Production) : Finset Char :=
  p.right.foldr (fun s acc => match s with | .N c => insert c acc | .T _ => acc) ∅

/-- `CFG::update_variables`: every production's left symbol together with
every nonterminal occurring in a right-hand side.  The Rust field is
recomputed on every construction, so it is a derived value here. -/
def CFG.variables (g : CFG) : Finset Char :=
  g.productions.foldr (fun p acc => insert p.left (rightNonterms p ∪ acc)) ∅

/-- The fixed 52-symbol reserved nonterminal alphabet (cfg.rs `ALPHA`). -/
def ALPHA : List Char :=
  "ABCDEFGHIJKLMNOPQRSTUVWXYZΓΔΘΛΞΣΦΨΩБДЁЖЗИЙПЦЧШЩЫЭЮЯ".toList

/-- `CFG::get_new_start`: the last alphabet symbol not already a variable
(`Vec::pop` takes the last element of the collected free list); `none`
models the `expect` panic on exhaustion. -/
def get_new_start (g : CFG) : Option Char :=
  (ALPHA.filter (fun c => decide (c ∉ g.variables))).getLast?

/-- Iterate a closure step a fixed number of times (the Rust
`while changed` loops reach the same least fixed point). -/
def iterStep {α : Type} (step : Finset α → Finset α) : Nat → Finset α → Finset α
  | 0, S => S
  | n + 1, S => iterStep step n (step S)

/-- The left-hand symbols of a production list, as a set. -/
def leftsF (ps : List Production) : Finset Char :=
  ps.foldr (fun p acc => insert p.left acc) ∅

/-- Whether a symbol is a nonterminal already known nullable
(`x.is_nonterminal() && nullable.contains(...)`). -/
def symNullable (acc : Finset Char) : Symbol → Bool
  | .N c => decide (c ∈ acc)
  | .T _ => false

/-- One pass of the nullable fixed point in `remove_epsilon_rules`:
an empty right-hand side marks its left nullable, and a right-hand side
of nonterminals that are all already nullable does too. -/
def nullableStep (ps : List Production) (S : Finset Char) : Finset Char :=
  ps.foldl (fun acc p =>
    let acc1 := if p.right = [] then insert p.left acc else acc
    if p.right.all (symNullable acc1) then insert p.left acc1 else acc1) S

/-- The nullable set of `remove_epsilon_rules` (fixed point). -/
def nullableSet (ps : List Production) : Finset Char :=
  iterStep (nullableStep ps) ((leftsF ps).card + 1) ∅

/-- The `start_hash_epsilon` flag: each epsilon production overwrites the
flag with whether its own left symbol is the start symbol, so only the
last epsilon production iterated decides it. -/
def hasEpsFlag (ps : List Production) (start : Char) : Bool :=
  ps.foldl (fun b p => if p.right = [] then decide (p.left = start) else b) false

/-- Whether a right-hand side is the direct self unit `[N left]`
(the variant filter of `remove_epsilon_rules`). -/
def isSelfUnit (left : Char) : List Symbol → Bool
  | [.N c] => decide (c = left)
  | _ => false

/-- The nullable-deletion variants of `remove_epsilon_rules`: for every
occurrence of a nullable nonterminal in a right-hand side, the rule with
that single occurrence removed, skipping empty results and direct
self-unit results.  (The Rust code iterates the nullable set in an outer
loop; the produced rule set is identical.) -/
def epsVariants (ps : List Production) (nul : Finset Char) : List Production :=
  ps.flatMap (fun p =>
    (List.range p.right.length).filterMap (fun idx =>
      match p.right.get? idx with
      | some (.N n) =>
          if n ∈ nul then
            let newr := p.right.eraseIdx idx
            if newr ≠ [] ∧ isSelfUnit p.left newr = false then
              some ⟨p.left, newr⟩
            else none
          else none
      | _ => none))

/-- `CFG::remove_epsilon_rules`; `none` models the `get_new_start` panic. -/
def remove_epsilon_rules (g : CFG) : Option CFG :=
  let nul := nullableSet g.productions
  let flag := hasEpsFlag g.productions g.start
  let base := g.productions.filter (fun p => !p.right.isEmpty)
  let newRules := base ++ epsVariants g.productions nul
  if g.start ∈ nul ∧ flag = true then
    match get_new_start g with
    | some ns => some ⟨ns, newRules ++ [⟨ns, []⟩, ⟨ns, [Symbol.N g.start]⟩]⟩
    | none => none
  else some ⟨g.start, newRules⟩

/-- One pass of the per-nonterminal unit-successor loop of
`remove_unit_rules`: only rules whose left symbol is `A` itself
contribute, so the loop collects the direct unit successors of `A`. -/
def unitStep (ps : List Production) (A : Char) (S : Finset Char) : Finset Char :=
  ps.foldl (fun acc p =>
    match p.right with
    | [Symbol.N c] => if p.left = A then insert c acc else acc
    | _ => acc) S

/-- The single-nonterminal targets of unit productions, as a set. -/
def unitTargets (ps : List Production) : Finset Char :=
  ps.foldr (fun p acc =>
    match p.right with
    | [Symbol.N c] => insert c acc
    | _ => acc) ∅

/-- The computed unit set for `A` in `remove_unit_rules`: the fixed point
seeded with `{A}`, with `A` removed at the end. -/
def unitClosure (g : CFG) (A : Char) : Finset Char :=
  (iterStep (unitStep g.productions A) ((unitTargets g.productions).card + 1) {A}).erase A

/-- Whether a production is a unit production
(`right.len() == 1 && right[0].is_nonterminal()`). -/
def isUnit (p : Production) : Bool :=
  match p.right with
  | [Symbol.N _] => true
  | _ => false

/-- The import filter of `remove_unit_rules`:
`r.right.len() != 1 || r.right[0].is_terminal()`. -/
def nonUnitRhs (r : Production) : Bool :=
  decide (r.right.length ≠ 1) ||
    (match r.right with | [s] => s.isTerminal | _ => false)

/-- `CFG::remove_unit_rules`: each unit production `A -> B` with `B` in
the unit set of `A` is replaced by the non-unit productions of `B`
re-attached to `A`; non-unit productions are copied through. -/
def remove_unit_rules (g : CFG) : CFG :=
  ⟨g.start, g.productions.flatMap (fun p =>
    match p.right with
    | [Symbol.N b] =>
        if b ∈ unitClosure g p.left then
          (g.productions.filter (fun r => decide (r.left = b) && nonUnitRhs r)).map
            (fun r => ⟨p.left, r.right⟩)
        else []
    | _ => [p])⟩

/-- Processing of one rule in the generating fixed point of
`remove_useless_rules`: epsilon rules are skipped; a rule whose
right-hand nonterminals are an empty set or all already generating marks
its left generating. -/
def genBody (acc : Finset Char) (p : Production) : Finset Char :=
  if p.right.isEmpty then acc
  else if rightNonterms p = ∅ ∨ rightNonterms p ⊆ acc then insert p.left acc
  else acc

/-- One pass of the generating fixed point of `remove_useless_rules`. -/
def genStep (ps : List Production) (S : Finset Char) : Finset Char :=
  ps.foldl genBody S

/-- The generating set of `remove_useless_rules` (fixed point). -/
def genSet (ps : List Production) : Finset Char :=
  iterStep (genStep ps) ((leftsF ps).card + 1) ∅

/-- `CFG::remove_useless_rules`: keep the productions whose left symbol
is generating and whose right-hand nonterminals are all generating. -/
def remove_useless_rules (g : CFG) : CFG :=
  ⟨g.start, g.productions.filter (fun p =>
    decide (p.left ∈ genSet g.productions) &&
      decide (rightNonterms p ⊆ genSet g.productions))⟩

/-- Processing of one rule in the reachability fixed point of
`remove_unreachable_rules`: a rule with reachable left symbol makes all
of its right-hand symbols reachable. -/
def reachBody (acc : Finset Symbol) (p : Production) : Finset Symbol :=
  if Symbol.N p.left ∈ acc then p.right.foldl (fun a s => insert s a) acc
  else acc

/-- One pass of the reachability fixed point of
`remove_unreachable_rules`. -/
def reachStep (ps : List Production) (S : Finset Symbol) : Finset Symbol :=
  ps.foldl reachBody S

/-- All symbols occurring in right-hand sides, as a set. -/
def allRhsSyms (ps : List Production) : Finset Symbol :=
  ps.foldr (fun p acc => p.right.foldr insert acc) ∅

/-- The reachable symbol set of `remove_unreachable_rules`, seeded with
the start nonterminal. -/
def reachSet (g : CFG) : Finset Symbol :=
  iterStep (reachStep g.productions) ((allRhsSyms g.productions).card + 1)
    {Symbol.N g.start}

/-- `CFG::remove_unreachable_rules`: keep productions whose left symbol
and right-hand symbols are all reachable. -/
def remove_unreachable_rules (g : CFG) : CFG :=
  ⟨g.start, g.productions.filter (fun p =>
    decide (Symbol.N p.left ∈ reachSet g) &&
      p.right.all (fun s => decide (s ∈ reachSet g)))⟩

/-- `CFG::simplify`: the four passes in their fixed order; `none` models
an alphabet-exhaustion panic in `remove_epsilon_rules`. -/
def simplify (g : CFG) : Option CFG :=
  (remove_epsilon_rules g).map (fun g1 =>
    remove_unreachable_rules (remove_useless_rules (remove_unit_rules g1)))

/-- Set equality of two production lists, as a boolean. -/
def sameProds (a b : List Production) : Bool :=
  a.all (fun p => decide (p ∈ b)) && b.all (fun p => decide (p ∈ a))

/-- Outcome of a fallible parsing routine: `ok`, an error value returned
to the caller (`io::Error`), or a process-aborting panic. -/
inductive PRes (α : Type)
  | ok : α → PRes α
  | err : String → PRes α
  | panic : PRes α
deriving DecidableEq, Repr

/-- Rust `str::trim` on a character sequence: whitespace removed from
both ends. -/
def trimChars (l : List Char) : List Char :=
  ((l.dropWhile Char.isWhitespace).reverse.dropWhile Char.isWhitespace).reverse

/-- Rust `str::split("->")`: split on every occurrence of the
two-character arrow, left to right. -/
def splitArrow : List Char → List (List Char)
  | [] => [[]]
  | '-' :: '>' :: rest => [] :: splitArrow rest
  | c :: rest =>
    match splitArrow rest with
    | [] => [[c]]
    | piece :: pieces => (c :: piece) :: pieces

/-- Rust `str::split('|')`. -/
def splitPipe : List Char → List (List Char)
  | [] => [[]]
  | '|' :: rest => [] :: splitPipe rest
  | c :: rest =>
    match splitPipe rest with
    | [] => [[c]]
    | piece :: pieces => (c :: piece) :: pieces

/-- `CFG::parse_production` (the line is a character sequence).  The
split pieces are trimmed; a line that does not split into exactly two
pieces, or whose left piece is longer than one character, is a
`Bad rule` error; a line whose left piece is EMPTY passes that guard and
then indexes `right_chars[0]` out of bounds, which aborts (`panic`); a
lowercase or numeric left character is a `Terminal symbol at LHS`
error. -/
def parse_production (line : List Char) : PRes (List Production) :=
  match (splitArrow line).map trimChars with
  | [] => PRes.panic
  | r0 :: rest =>
    if rest.length ≠ 1 ∨ r0.length > 1 then
      PRes.err ("Bad rule: " ++ String.mk line)
    else
      match r0 with
      | [] => PRes.panic
      | left_letter :: _ =>
        if left_letter.isLower || left_letter.isDigit then
          PRes.err ("Terminal symbol at LHS: " ++ String.mk line)
        else
          PRes.ok ((splitPipe (rest.headD [])).map (fun rhs =>
            Production.mk left_letter ((trimChars rhs).map Symbol.new)))

/-- `CFG::parse_from_reader`, processing the input line by line: blank
and comment lines are skipped, the first valid rule fixes the start
symbol, errors and panics propagate. -/
def parse_lines : List (List Char) → Option Char → List Production → PRes CFG
  | [], none, _ => PRes.err "Don't see any rule"
  | [], some s, prods => PRes.ok ⟨s, prods⟩
  | l :: ls, start, prods =>
    let rule := trimChars l
    if rule.isEmpty || rule.head? = some '#' then parse_lines ls start prods
    else
      match parse_production rule with
      | PRes.err e => PRes.err e
      | PRes.panic => PRes.panic
      | PRes.ok add =>
        let start1 := if prods.isEmpty then (add.headD ⟨'?', []⟩).left else
          (start.getD '?')
        parse_lines ls (some start1) (prods ++ add)

/-- `CFG::parse_from_reader` on a list of input lines. -/
def parse_from_reader (lines : List (List Char)) : PRes CFG :=
  parse_lines lines none []

/-- Generator state (generator.rs `Generator`): expansion direction,
the nonterminal-to-alternatives index, the length bounds and the FIFO
worklist of sentential forms. -/
structure GenState where
  lft : Bool
  rules : List (Symbol × List (List Symbol))
  minL : Nat
  maxL : Nat
  queue : List (List Symbol)
deriving DecidableEq, Repr

/-- Add one right-hand side under its key in the rule index, mirroring
the `rules.get / push / insert` sequence of `Generator::new`. -/
def insertRule (m : List (Symbol × List (List Symbol))) (k : Symbol)
    (r : List Symbol) : List (Symbol × List (List Symbol)) :=
  match m.lookup k with
  | some s => m.map (fun e => if e.1 = k then (e.1, s ++ [r]) else e)
  | none => m ++ [(k, [r])]

/-- The production index of `Generator::new`: each production's right
side appended under the key `N(left)`. -/
def buildRules (ps : List Production) : List (Symbol × List (List Symbol)) :=
  ps.foldl (fun m p => insertRule m (Symbol.N p.left) p.right) []

/-- `Generator::new`: simplify the grammar, index its productions, and
seed the worklist with the alternatives stored under the start symbol of
the ORIGINAL grammar (`grammar.start` in the source); `none` models a
panic inside `simplify`. -/
def generatorNew (g : CFG) (lmin lmax : Nat) (lft : Bool) : Option GenState :=
  match simplify g with
  | none => none
  | some g1 =>
    let rules := buildRules g1.productions
    let queue := match rules.lookup (Symbol.N g.start) with
      | some cases => cases
      | none => []
    some ⟨lft, rules, lmin, lmax, queue⟩

/-- Index of the leftmost nonterminal (`position`). -/
def leftmostNT (f : List Symbol) : Nat := f.findIdx (·.isNonterminal)

/-- Index of the rightmost nonterminal (`rposition`). -/
def rightmostNT (f : List Symbol) : Nat :=
  f.length - 1 - (f.reverse.findIdx (·.isNonterminal))

/-- Replace the symbol at `idx` by the sequence `seq`
(`next_item[..idx] + seq + next_item[idx+1..]`). -/
def expandAt (f : List Symbol) (idx : Nat) (seq : List Symbol) : List Symbol :=
  f.take idx ++ seq ++ f.drop (idx + 1)

/-- How a finite run of the generator ends: worklist exhausted (`next`
returned `None`), fuel exhausted, or the `unreachable!()` panic. -/
inductive RunEnd
  | ok
  | fuelOut
  | panicked
deriving DecidableEq, Repr

/-- Repeatedly calling `Generator::next` until it returns `None`,
collecting every yielded string; each fuel unit pays for one worklist
pop, so a run of the Rust iterator corresponds to a sufficiently large
fuel.  Branch order mirrors the source: empty forms are yielded
unconditionally, over-length forms are dropped, all-terminal forms are
yielded when long enough, and otherwise the chosen nonterminal is
expanded and the results pushed to the back of the worklist. -/
def runG (lft : Bool) (rules : List (Symbol × List (List Symbol)))
    (minL maxL : Nat) : Nat → List (List Symbol) → List (List Symbol) × RunEnd
  | _, [] => ([], RunEnd.ok)
  | 0, _ :: _ => ([], RunEnd.fuelOut)
  | fuel + 1, f :: q =>
    if f = [] then
      let r := runG lft rules minL maxL fuel q
      (f :: r.1, r.2)
    else if maxL < f.length then runG lft rules minL maxL fuel q
    else if f.all (·.isTerminal) then
      if minL ≤ f.length then
        let r := runG lft rules minL maxL fuel q
        (f :: r.1, r.2)
      else runG lft rules minL maxL fuel q
    else
      let idx := if lft then leftmostNT f else rightmostNT f
      match rules.lookup (f.getD idx (Symbol.T 'a')) with
      | some alts => runG lft rules minL maxL fuel (q ++ alts.map (expandAt f idx))
      | none => ([], RunEnd.panicked)

/-- Generating nonterminals, as an inductive characterization of the
fixed point computed by `remove_useless_rules`: note that a production
with an empty right-hand side never contributes. -/
inductive GenP (ps : List Production) : Char → Prop
  | step (p : Production) (hp : p ∈ ps) (hne : p.right ≠ [])
      (h : ∀ c ∈ rightNonterms p, GenP ps c) : GenP ps p.left

/-- Reachable symbols, as an inductive characterization of the fixed
point computed by `remove_unreachable_rules`. -/
inductive ReachP (ps : List Production) (start : Char) : Symbol → Prop
  | base : ReachP ps start (Symbol.N start)
  | step (p : Production) (hp : p ∈ ps)
      (hl : ReachP ps start (Symbol.N p.left)) (s : Symbol) (hs : s ∈ p.right) :
      ReachP ps start s

/-- The direct unit successors of `A`: targets of literal unit
productions `A -> B`. -/
def directUnits (ps : List Production) (A : Char) : Finset Char :=
  ps.foldr (fun p acc =>
    match p.right with
    | [Symbol.N c] => if p.left = A then insert c acc else acc
    | _ => acc) ∅

/-- Concrete scenario 1 of the specification (also the `remove_epsilon`
unit test of cfg.rs): `S -> AaB | aB | cC`, `A -> AB | a | b | B`,
`B -> Ba |`, `C -> AB | c`. -/
def G9 : CFG := ⟨'S', [
  ⟨'S', [.N 'A', .T 'a', .N 'B']⟩, ⟨'S', [.T 'a', .N 'B']⟩, ⟨'S', [.T 'c', .N 'C']⟩,
  ⟨'A', [.N 'A', .N 'B']⟩, ⟨'A', [.T 'a']⟩, ⟨'A', [.T 'b']⟩, ⟨'A', [.N 'B']⟩,
  ⟨'B', [.N 'B', .T 'a']⟩, ⟨'B', []⟩,
  ⟨'C', [.N 'A', .N 'B']⟩, ⟨'C', [.T 'c']⟩]⟩

/-- The expected production set of concrete scenario 1:
`S -> Aa | AaB | a | aB | c | cC`, `A -> AB | B | a | b`, `B -> Ba | a`,
`C -> A | AB | B | c`. -/
def E9 : List Production := [
  ⟨'S', [.N 'A', .T 'a']⟩, ⟨'S', [.N 'A', .T 'a', .N 'B']⟩, ⟨'S', [.T 'a']⟩,
  ⟨'S', [.T 'a', .N 'B']⟩, ⟨'S', [.T 'c']⟩, ⟨'S', [.T 'c', .N 'C']⟩,
  ⟨'A', [.N 'A', .N 'B']⟩, ⟨'A', [.N 'B']⟩, ⟨'A', [.T 'a']⟩, ⟨'A', [.T 'b']⟩,
  ⟨'B', [.N 'B', .T 'a']⟩, ⟨'B', [.T 'a']⟩,
  ⟨'C', [.N 'A']⟩, ⟨'C', [.N 'A', .N 'B']⟩, ⟨'C', [.T 'c']⟩, ⟨'C', [.N 'B']⟩]

/-- A grammar whose production iteration order visits `S -> ε` before
`B -> ε`: `S -> ε | a`, `B -> ε | b` with start `S`. -/
def G2 : CFG := ⟨'S', [⟨'S', []⟩, ⟨'B', []⟩, ⟨'S', [.T 'a']⟩, ⟨'B', [.T 'b']⟩]⟩

/-- A unit chain `A -> B`, `B -> C`, `C -> a`. -/
def G3 : CFG := ⟨'A', [⟨'A', [.N 'B']⟩, ⟨'B', [.N 'C']⟩, ⟨'C', [.T 'a']⟩]⟩

/-- A grammar whose only production is the epsilon production `A -> ε`. -/
def G4 : CFG := ⟨'S', [⟨'A', []⟩]⟩

/-- A grammar with a literal epsilon production on its nullable start:
`S -> ε | a`. -/
def G5 : CFG := ⟨'S', [⟨'S', []⟩, ⟨'S', [.T 'a']⟩]⟩

/-- The one-production grammar `S -> a`. -/
def GW : CFG := ⟨'S', [⟨'S', [.T 'a']⟩]⟩

/-- A grammar in which all 52 reserved nonterminal symbols are already
variables (each has an epsilon production). -/
def GEX : CFG := ⟨'A', ALPHA.map (fun c => ⟨c, []⟩)⟩

/-- A nonterminal that occurs in some right-hand side of the grammar;
every nonterminal of every sentential form in the generator's worklist
has this property. -/
def occursInRhs (ps : List Production) (c : Char) : Prop :=
  ∃ p ∈ ps, Symbol.N c ∈ p.right

/-- Termination rank of a sentential form: over-length forms rank 0; a
form within bounds is ranked lexicographically by remaining growth room
and number of nonterminals. -/
def formRank (maxL : Nat) (f : List Symbol) : Nat :=
  if maxL < f.length then 0
  else (maxL + 1 - f.length) * (maxL + 2) + (f.filter Symbol.isNonterminal).length

/-- Weight of a form: an exponential tower over the rank, so that one
expansion step (at most `B - 2` children, each of smaller rank) strictly
decreases the total queue weight. -/
def formWeight (B maxL : Nat) (f : List Symbol) : Nat := B ^ (formRank maxL f + 1)

/-- Total weight of the worklist. -/
def queueWeight (B maxL : Nat) (q : List (List Symbol)) : Nat :=
  (q.map (formWeight B maxL)).sum

/-- The largest number of alternatives stored under any key of the rule
index. -/
def maxAlts (rules : List (Symbol × List (List Symbol))) : Nat :=
  rules.foldr (fun e m => max e.2.length m) 0

section Machinery

variable {α : Type} [DecidableEq α] {β : Type}

theorem foldl_ext {f : Finset α → β → Finset α} (hf : ∀ a x, a ⊆ f a x) :
    ∀ (l : List β) (S : Finset α), S ⊆ l.foldl f S
  | [], _ => Finset.Subset.refl _
  | x :: xs, S => (hf S x).trans (foldl_ext hf xs (f S x))

theorem foldl_bound {f : Finset α → β → Finset α} {U : Finset α} :
    ∀ (l : List β) (S : Finset α), (∀ a, ∀ x ∈ l, f a x ⊆ a ∪ U) →
      l.foldl f S ⊆ S ∪ U := by
  intro l
  induction l with
  | nil => intro S _; exact Finset.subset_union_left
  | cons x xs ih =>
      intro S hf
      have h1 : List.foldl f (f S x) xs ⊆ f S x ∪ U :=
        ih (f S x) (fun a y hy => hf a y (List.mem_cons_of_mem x hy))
      have h2 : f S x ∪ U ⊆ (S ∪ U) ∪ U :=
        Finset.union_subset_union (hf S x (List.mem_cons_self x xs))
          (Finset.Subset.refl U)
      simpa [Finset.union_assoc] using h1.trans h2

theorem foldl_mem_step {f : Finset α → β → Finset α} (hf : ∀ a x, a ⊆ f a x)
    {k : α} {p : β} :
    ∀ (l : List β) (S : Finset α), p ∈ l → (∀ a, S ⊆ a → k ∈ f a p) →
      k ∈ l.foldl f S := by
  intro l
  induction l with
  | nil => intro S h; exact absurd h (List.not_mem_nil p)
  | cons x xs ih =>
      intro S hp hk
      rcases List.mem_cons.mp hp with h | h
      · subst h
        exact foldl_ext hf xs (f S p) (hk S (Finset.Subset.refl S))
      · exact ih (f S x) h (fun a ha => hk a ((hf S x).trans ha))

theorem foldl_eq_self {f : Finset α → β → Finset α} (hf : ∀ a x, a ⊆ f a x) :
    ∀ (l : List β) (S : Finset α), l.foldl f S = S → ∀ x ∈ l, f S x = S := by
  intro l
  induction l with
  | nil => intro S _ x hx; exact absurd hx (List.not_mem_nil x)
  | cons y ys ih =>
      intro S hfold x hx
      have hfold1 : List.foldl f (f S y) ys = S := by simpa using hfold
      have h1 : f S y ⊆ List.foldl f (f S y) ys := foldl_ext hf ys (f S y)
      have hsub : f S y ⊆ S := by
        calc f S y ⊆ List.foldl f (f S y) ys := h1
          _ = S := hfold1
      have heq : f S y = S := Finset.Subset.antisymm hsub (hf S y)
      have hfold2 : List.foldl f S ys = S := by rw [heq] at hfold1; exact hfold1
      rcases List.mem_cons.mp hx with h | h
      · subst h; exact heq
      · exact ih S hfold2 x h

theorem foldl_inv {f : Finset α → β → Finset α} {P : Finset α → Prop} :
    ∀ (l : List β) (S : Finset α), P S → (∀ a x, x ∈ l → P a → P (f a x)) →
      P (l.foldl f S) := by
  intro l
  induction l with
  | nil => intro S h _; exact h
  | cons x xs ih =>
      intro S hS hstep
      exact ih (f S x) (hstep S x (List.mem_cons_self x xs) hS)
        (fun a y hy => hstep a y (List.mem_cons_of_mem x hy))

theorem iterStep_eq_iterate (step : Finset α → Finset α) :
    ∀ (n : Nat) (S : Finset α), iterStep step n S = step^[n] S := by
  intro n
  induction n with
  | zero => intro S; rfl
  | succ m ih =>
      intro S
      show iterStep step m (step S) = step^[m + 1] S
      rw [ih (step S), Function.iterate_succ_apply]

theorem iterStep_inv {step : Finset α → Finset α} {P : Finset α → Prop}
    (hstep : ∀ S, P S → P (step S)) :
    ∀ (n : Nat) (S : Finset α), P S → P (iterStep step n S) := by
  intro n
  induction n with
  | zero => intro S h; exact h
  | succ m ih => intro S h; exact ih (step S) (hstep S h)

theorem iterStep_subset {step : Finset α → Finset α}
    (hext : ∀ S, S ⊆ step S) :
    ∀ (n : Nat) (S : Finset α), S ⊆ iterStep step n S := by
  intro n
  induction n with
  | zero => intro S; exact Finset.Subset.refl S
  | succ m ih => intro S; exact (hext S).trans (ih (step S))

theorem iterStep_fix (step : Finset α → Finset α) (U : Finset α)
    (hext : ∀ S, S ⊆ step S) (hbound : ∀ S, step S ⊆ S ∪ U) (S₀ : Finset α) :
    step (iterStep step (U.card + 1) S₀) = iterStep step (U.card + 1) S₀ := by
  have hbnd : ∀ k : Nat, step^[k] S₀ ⊆ S₀ ∪ U := by
    intro k
    induction k with
    | zero => exact Finset.subset_union_left
    | succ m ih =>
        rw [Function.iterate_succ_apply']
        refine (hbound _).trans ?_
        refine Finset.union_subset (ih.trans ?_) ?_
        · exact Finset.Subset.refl _
        · exact Finset.subset_union_right
  have hstab : ∃ k, k ≤ U.card ∧ step (step^[k] S₀) = step^[k] S₀ := by
    by_contra hcon
    push_neg at hcon
    have hgrow : ∀ k, k ≤ U.card + 1 → S₀.card + k ≤ (step^[k] S₀).card := by
      intro k
      induction k with
      | zero => intro _; simp
      | succ m ih =>
          intro hm
          have hm2 : m ≤ U.card := Nat.lt_succ_iff.mp hm
          have hne : step (step^[m] S₀) ≠ step^[m] S₀ := hcon m hm2
          have hss : step^[m] S₀ ⊂ step^[m + 1] S₀ := by
            rw [Function.iterate_succ_apply']
            exact HasSubset.Subset.ssubset_of_ne (hext _) (Ne.symm hne)
          have hcard := Finset.card_lt_card hss
          have := ih (Nat.le_of_succ_le hm)
          omega
    have h1 := hgrow (U.card + 1) (Nat.le_refl _)
    have h2 : (step^[U.card + 1] S₀).card ≤ (S₀ ∪ U).card :=
      Finset.card_le_card (hbnd _)
    have h3 : (S₀ ∪ U).card ≤ S₀.card + U.card := Finset.card_union_le S₀ U
    omega
  obtain ⟨k, hk, heq⟩ := hstab
  have hconst : ∀ m : Nat, step^[k + m] S₀ = step^[k] S₀ := by
    intro m
    induction m with
    | zero => rfl
    | succ j ih =>
        have : k + (j + 1) = (k + j) + 1 := rfl
        rw [this, Function.iterate_succ_apply', ih, heq]
  have hsplit : U.card + 1 = k + (U.card + 1 - k) := by omega
  rw [iterStep_eq_iterate, hsplit, hconst, heq]

end Machinery

theorem mem_rightNonterms {p : Production} {c : Char} :
    c ∈ rightNonterms p ↔ Symbol.N c ∈ p.right := by
  show c ∈ p.right.foldr _ ∅ ↔ _
  induction p.right with
  | nil => simp
  | cons s l ih =>
      cases s with
      | N d => simp [List.foldr_cons, Finset.mem_insert, ih]
      | T d => simp [List.foldr_cons, ih]

theorem mem_leftsF {ps : List Production} {c : Char} :
    c ∈ leftsF ps ↔ ∃ p ∈ ps, p.left = c := by
  unfold leftsF
  induction ps with
  | nil => simp
  | cons p l ih =>
      simp only [List.foldr_cons, Finset.mem_insert, ih, List.mem_cons]
      constructor
      · rintro (h | ⟨q, hq, h⟩)
        · exact ⟨p, Or.inl rfl, h.symm⟩
        · exact ⟨q, Or.inr hq, h⟩
      · rintro ⟨q, hq | hq, h⟩
        · subst hq; exact Or.inl h.symm
        · exact Or.inr ⟨q, hq, h⟩

theorem mem_variables {g : CFG} {c : Char} :
    c ∈ g.variables ↔ ∃ p ∈ g.productions, p.left = c ∨ Symbol.N c ∈ p.right := by
  show c ∈ g.productions.foldr _ ∅ ↔ _
  induction g.productions with
  | nil => simp
  | cons p l ih =>
      simp only [List.foldr_cons, Finset.mem_insert, Finset.mem_union, ih,
        List.mem_cons, mem_rightNonterms]
      constructor
      · rintro (h | h | ⟨q, hq, h⟩)
        · exact ⟨p, Or.inl rfl, Or.inl h.symm⟩
        · exact ⟨p, Or.inl rfl, Or.inr h⟩
        · exact ⟨q, Or.inr hq, h⟩
      · rintro ⟨q, hq | hq, h⟩
        · subst hq
          rcases h with h | h
          · exact Or.inl h.symm
          · exact Or.inr (Or.inl h)
        · exact Or.inr (Or.inr ⟨q, hq, h⟩)

/-- C10: `remove_unit_rules`, `remove_useless_rules` and
`remove_unreachable_rules` each return a grammar whose start symbol
equals the start symbol of their input; only `remove_epsilon_rules` may
change the start symbol (and does, e.g. on `S -> ε | a`). -/
theorem c10_start_preserved :
    (∀ g : CFG, (remove_unit_rules g).start = g.start) ∧
    (∀ g : CFG, (remove_useless_rules g).start = g.start) ∧
    (∀ g : CFG, (remove_unreachable_rules g).start = g.start) ∧
    (∃ g : CFG, (remove_epsilon_rules g).map CFG.start ≠ some g.start) :=
  ⟨fun _ => rfl, fun _ => rfl, fun _ => rfl, ⟨G5, by decide⟩⟩

/-- C2, divergence of the code from the claim: in the grammar `G2` the
start symbol `S` is nullable and `S -> ε` is literally present, yet
because the `start_hash_epsilon` flag is overwritten by the later
`B -> ε` production, no fresh start symbol is introduced and the result
keeps start `S` (the claim requires a fresh start here). -/
theorem c2_flag_overwritten :
    Production.mk 'S' [] ∈ G2.productions ∧
    'S' ∈ nullableSet G2.productions ∧
    remove_epsilon_rules G2 =
      some ⟨'S', [⟨'S', [Symbol.T 'a']⟩, ⟨'B', [Symbol.T 'b']⟩]⟩ := by
  refine ⟨by decide, by decide, by decide⟩

/-- C9: on concrete scenario 1, `remove_epsilon_rules` yields exactly
the expected production set `S -> Aa | AaB | a | aB | c | cC`,
`A -> AB | B | a | b`, `B -> Ba | a`, `C -> A | AB | B | c`, with start
symbol `S` unchanged. -/
theorem c9_remove_epsilon_concrete :
    (remove_epsilon_rules G9).map (fun g => (g.start, sameProds g.productions E9)) =
      some ('S', true) := by decide

/-- C3, counterexample: with unit productions `A -> B` and `B -> C`
present, `C` is not in the computed unit set of `A` — the computation
follows only direct unit successors, not transitive ones. -/
theorem c3_counterexample :
    Production.mk 'A' [Symbol.N 'B'] ∈ G3.productions ∧
    Production.mk 'B' [Symbol.N 'C'] ∈ G3.productions ∧
    'C' ∉ unitClosure G3 'A' := by
  refine ⟨by decide, by decide, by decide⟩

/-- C4, counterexample: the nonterminal `A` has the production `A -> ε`
yet is not classified as generating — the generating fixed point skips
epsilon productions. -/
theorem c4_counterexample :
    Production.mk 'A' [] ∈ G4.productions ∧ 'A' ∉ genSet G4.productions := by
  refine ⟨by decide, by decide⟩

/-- C5, counterexample: for `S -> ε | a` the simplified grammar has the
fresh start `Я` with alternatives `ε` and `a`, but the generator's
initial worklist is empty, because the worklist is seeded from the
ORIGINAL grammar's start symbol `S`, which no longer has productions. -/
theorem c5_counterexample :
    (generatorNew G5 1 2 true).map GenState.queue = some [] ∧
    (simplify G5).map CFG.start = some 'Я' ∧
    (simplify G5).map (fun g => decide (Production.mk 'Я' [] ∈ g.productions)) =
      some true := by
  refine ⟨by decide, by decide, by decide⟩

/-- C6, counterexample: the rule line `-> a` (empty left-hand side)
makes `parse_production` abort on an out-of-bounds index instead of
returning an error value, and exhaustion of the 52-symbol alphabet makes
`get_new_start` abort (the `expect` panic) instead of returning an error
value. -/
theorem c6_counterexample :
    parse_production ("-> a".toList) = PRes.panic ∧ get_new_start GEX = none := by
  refine ⟨by decide, by decide⟩

theorem mem_directUnits {ps : List Production} {A x : Char} :
    x ∈ directUnits ps A ↔ ∃ p ∈ ps, p.left = A ∧ p.right = [Symbol.N x] := by
  induction ps with
  | nil => simp [directUnits]
  | cons p l ih =>
      have hstep : directUnits (p :: l) A =
          (match p.right with
           | [Symbol.N c] =>
               if p.left = A then insert c (directUnits l A) else directUnits l A
           | _ => directUnits l A) := rfl
      rw [hstep, List.exists_mem_cons_iff]
      cases hr : p.right with
      | nil => simp [ih]
      | cons s t =>
          cases s with
          | T c => simp [ih]
          | N c =>
              cases t with
              | cons s2 t2 => simp [ih]
              | nil =>
                  dsimp only
                  by_cases hA : p.left = A
                  · rw [if_pos hA]
                    simp only [Finset.mem_insert, ih, hA, true_and,
                      List.cons.injEq, Symbol.N.injEq, and_true, eq_comm]
                  · rw [if_neg hA]
                    simp [ih, hA]

theorem mem_unitStep {ps : List Production} {A : Char} {x : Char} :
    ∀ S : Finset Char, x ∈ unitStep ps A S ↔
      x ∈ S ∨ ∃ p ∈ ps, p.left = A ∧ p.right = [Symbol.N x] := by
  induction ps with
  | nil => intro S; simp [unitStep]
  | cons p l ih =>
      intro S
      have hstep : unitStep (p :: l) A S = unitStep l A
          (match p.right with
           | [Symbol.N c] => if p.left = A then insert c S else S
           | _ => S) := rfl
      rw [hstep, ih, List.exists_mem_cons_iff]
      cases hr : p.right with
      | nil => simp [hr]
      | cons s t =>
          cases s with
          | T c => simp
          | N c =>
              cases t with
              | cons s2 t2 => simp
              | nil =>
                  dsimp only
                  by_cases hA : p.left = A
                  · rw [if_pos hA]
                    simp only [hA, Finset.mem_insert, true_and,
                      List.cons.injEq, Symbol.N.injEq, and_true, eq_comm]
                    tauto
                  · rw [if_neg hA]
                    simp [hA]

/-- C3, amended: the computed unit set of `A` consists exactly of the
direct unit successors of `A` (the targets `B ≠ A` of literal unit
productions `A -> B`); unit productions are not followed transitively. -/
theorem c3_amended (g : CFG) (A : Char) :
    unitClosure g A = (directUnits g.productions A).erase A := by
  have hstep : ∀ S, unitStep g.productions A S = S ∪ directUnits g.productions A := by
    intro S
    ext x
    simp [mem_unitStep, mem_directUnits, Finset.mem_union]
  have hstable : ∀ n S, directUnits g.productions A ⊆ S →
      iterStep (unitStep g.productions A) n S = S := by
    intro n
    induction n with
    | zero => intro S _; rfl
    | succ m ih =>
        intro S hS
        show iterStep _ m (unitStep g.productions A S) = S
        have h1 : unitStep g.productions A S = S := by
          rw [hstep]
          exact Finset.union_eq_left.mpr hS
        rw [h1]
        exact ih S hS
  unfold unitClosure
  have h2 : iterStep (unitStep g.productions A) ((unitTargets g.productions).card + 1)
      {A} = {A} ∪ directUnits g.productions A := by
    show iterStep _ ((unitTargets g.productions).card) (unitStep g.productions A {A}) = _
    rw [hstep]
    exact hstable _ _ Finset.subset_union_right
  rw [h2]
  ext x
  simp only [Finset.mem_erase, Finset.mem_union, Finset.mem_singleton]
  tauto

theorem genBody_ext (a : Finset Char) (p : Production) : a ⊆ genBody a p := by
  unfold genBody
  split
  · exact Finset.Subset.refl a
  · split
    · exact Finset.subset_insert _ a
    · exact Finset.Subset.refl a

theorem genStep_ext (ps : List Production) (S : Finset Char) :
    S ⊆ genStep ps S := by
  unfold genStep
  exact foldl_ext genBody_ext ps S

theorem genStep_bound (ps : List Production) (S : Finset Char) :
    genStep ps S ⊆ S ∪ leftsF ps := by
  unfold genStep
  apply foldl_bound
  intro a p hp
  unfold genBody
  split
  · exact Finset.subset_union_left
  · split
    · exact Finset.insert_subset
        (Finset.mem_union_right a (mem_leftsF.mpr ⟨p, hp, rfl⟩))
        Finset.subset_union_left
    · exact Finset.subset_union_left

theorem genSet_fix (ps : List Production) :
    genStep ps (genSet ps) = genSet ps := by
  unfold genSet
  exact iterStep_fix (genStep ps) (leftsF ps) (genStep_ext ps)
    (fun S => genStep_bound ps S) ∅

theorem genStep_mem {ps : List Production} {p : Production} {S : Finset Char}
    (hp : p ∈ ps) (hne : p.right ≠ []) (hsub : rightNonterms p ⊆ S) :
    p.left ∈ genStep ps S := by
  unfold genStep
  apply foldl_mem_step genBody_ext ps S hp
  intro a ha
  unfold genBody
  rw [if_neg (by simpa [List.isEmpty_iff] using hne)]
  rw [if_pos (Or.inr (hsub.trans ha))]
  exact Finset.mem_insert_self _ a

theorem genSet_sound {ps : List Production} : ∀ c ∈ genSet ps, GenP ps c := by
  have hstep : ∀ S : Finset Char, (∀ c ∈ S, GenP ps c) →
      ∀ c ∈ genStep ps S, GenP ps c := by
    intro S hS
    refine @foldl_inv Char _ Production genBody
      (fun T => ∀ c ∈ T, GenP ps c) ps S hS ?_
    intro a p hp ha
    unfold genBody
    split
    · exact ha
    next hemp =>
      split
      next hcond =>
        intro c hc
        rcases Finset.mem_insert.mp hc with h1 | h1
        · subst h1
          refine GenP.step p hp ?_ ?_
          · simpa [List.isEmpty_iff] using hemp
          · intro d hd
            rcases hcond with h0 | h0
            · rw [h0] at hd; exact absurd hd (Finset.not_mem_empty d)
            · exact ha d (h0 hd)
        · exact ha c h1
      · exact ha
  exact @iterStep_inv Char _ (genStep ps) (fun S => ∀ c ∈ S, GenP ps c)
    hstep ((leftsF ps).card + 1) ∅ (fun c hc => absurd hc (Finset.not_mem_empty c))

theorem genSet_complete {ps : List Production} {c : Char}
    (h : GenP ps c) : c ∈ genSet ps := by
  induction h with
  | step p hp hne _ ih =>
      have h2 : p.left ∈ genStep ps (genSet ps) :=
        genStep_mem hp hne (fun d hd => ih d hd)
      rwa [genSet_fix] at h2

/-- C4, amended: a production with an empty right-hand side never makes
its left symbol generating (any generating nonterminal owes it to a
production with a NONEMPTY right-hand side whose nonterminals are all
generating), and the output of `remove_useless_rules` retains exactly
the productions whose left symbol is generating and whose right-hand
nonterminals are all generating. -/
theorem c4_amended :
    (∀ (ps : List Production) (c : Char), c ∈ genSet ps →
      ∃ p ∈ ps, p.left = c ∧ p.right ≠ [] ∧
        ∀ d ∈ rightNonterms p, d ∈ genSet ps) ∧
    (∀ (g : CFG) (p : Production), p ∈ (remove_useless_rules g).productions ↔
      (p ∈ g.productions ∧ p.left ∈ genSet g.productions ∧
        rightNonterms p ⊆ genSet g.productions)) := by
  constructor
  · intro ps c hc
    cases genSet_sound c hc with
    | step p hp hne h =>
        exact ⟨p, hp, rfl, hne, fun d hd => genSet_complete (h d hd)⟩
  · intro g p
    show p ∈ g.productions.filter _ ↔ _
    rw [List.mem_filter]
    simp only [Bool.and_eq_true, decide_eq_true_eq, and_assoc]

/-- C4, witness: the amended theorem applied to the concrete grammar
`A -> a`, whose nonterminal `A` is generating. -/
theorem c4_amended_witness :
    ∃ p ∈ [Production.mk 'A' [Symbol.T 'a']], p.left = 'A' ∧ p.right ≠ [] ∧
      ∀ d ∈ rightNonterms p, d ∈ genSet [Production.mk 'A' [Symbol.T 'a']] :=
  c4_amended.1 [Production.mk 'A' [Symbol.T 'a']] 'A' (by decide)

theorem splitArrow_ne_nil (l : List Char) : splitArrow l ≠ [] := by
  rw [splitArrow.eq_def]
  split
  · simp
  · simp
  · split
    · simp
    · simp

/-- C6, amended: a malformed rule line with a NONEMPTY left-hand side
(no arrow or several arrows, or a left piece longer than one character),
a terminal symbol used as left-hand side, and a grammar input with no
valid rule are all reported as explicit error values; but a line whose
left-hand side is empty aborts the process (out-of-bounds indexing), and
alphabet exhaustion in `get_new_start` aborts the process (`expect`),
exactly when all 52 reserved symbols are already variables. -/
theorem c6_amended :
    (∀ line : List Char, parse_production line = PRes.panic ↔
      ∃ r, (splitArrow line).map trimChars = [[], r]) ∧
    (∀ (line r0 : List Char) (rest : List (List Char)),
      (splitArrow line).map trimChars = r0 :: rest →
      (rest.length ≠ 1 ∨ r0.length > 1) →
      parse_production line = PRes.err ("Bad rule: " ++ String.mk line)) ∧
    (∀ (line : List Char) (c : Char) (r : List Char),
      (splitArrow line).map trimChars = [[c], r] →
      (c.isLower || c.isDigit) = true →
      parse_production line =
        PRes.err ("Terminal symbol at LHS: " ++ String.mk line)) ∧
    (∀ g : CFG, get_new_start g = none ↔ ∀ c ∈ ALPHA, c ∈ g.variables) ∧
    (∀ lines : List (List Char),
      (∀ l ∈ lines, trimChars l = [] ∨ (trimChars l).head? = some '#') →
      parse_from_reader lines = PRes.err "Don't see any rule") := by
  refine ⟨?_, ?_, ?_, ?_, ?_⟩
  · intro line
    constructor
    · intro h
      cases hm : (splitArrow line).map trimChars with
      | nil =>
          exact absurd (List.map_eq_nil_iff.mp hm) (splitArrow_ne_nil line)
      | cons r0 rest =>
          unfold parse_production at h
          rw [hm] at h
          dsimp only at h
          by_cases hc : rest.length ≠ 1 ∨ r0.length > 1
          · rw [if_pos hc] at h
            exact PRes.noConfusion h
          · rw [if_neg hc] at h
            push_neg at hc
            cases hr0 : r0 with
            | nil =>
                obtain ⟨r, hr⟩ := List.length_eq_one.mp hc.1
                refine ⟨r, ?_⟩
                rw [hr]
            | cons c r0t =>
                rw [hr0] at h
                dsimp only at h
                by_cases ht : (c.isLower || c.isDigit) = true
                · rw [if_pos ht] at h
                  exact PRes.noConfusion h
                · rw [if_neg ht] at h
                  exact PRes.noConfusion h
    · rintro ⟨r, hr⟩
      unfold parse_production
      rw [hr]
      try dsimp only
      rw [if_neg (by simp)]
  · intro line r0 rest hm hcond
    unfold parse_production
    rw [hm]
    try dsimp only
    rw [if_pos hcond]
  · intro line c r hm hterm
    unfold parse_production
    rw [hm]
    try dsimp only
    rw [if_neg (by simp)]
    try dsimp only
    rw [if_pos hterm]
  · intro g
    unfold get_new_start
    rw [List.getLast?_eq_none_iff, List.filter_eq_nil_iff]
    simp
  · intro lines h
    induction lines with
    | nil => rfl
    | cons l ls ih =>
        have hskip : ((trimChars l).isEmpty ||
            decide ((trimChars l).head? = some '#')) = true := by
          rcases h l (List.mem_cons_self l ls) with h1 | h1
          · simp [h1]
          · simp [h1]
        show parse_lines (l :: ls) none [] = _
        unfold parse_lines
        rw [if_pos hskip]
        exact ih (fun l2 hl2 => h l2 (List.mem_cons_of_mem l hl2))

/-- C6, witness: the amended theorem applied to concrete inputs — a rule
line with no arrow, a rule line with a terminal left-hand side, a
comment-only grammar input, and the 52-variable grammar exhausting the
alphabet. -/
theorem c6_amended_witness :
    parse_production ("S - a".toList) =
      PRes.err ("Bad rule: " ++ String.mk ("S - a".toList)) ∧
    parse_production ("s -> a".toList) =
      PRes.err ("Terminal symbol at LHS: " ++ String.mk ("s -> a".toList)) ∧
    get_new_start GEX = none ∧
    parse_from_reader ["# note".toList] = PRes.err "Don't see any rule" :=
  ⟨c6_amended.2.1 ("S - a".toList) ("S - a".toList) [] (by decide) (by decide),
   c6_amended.2.2.1 ("s -> a".toList) 's' ("a".toList) (by decide) (by decide),
   (c6_amended.2.2.2.1 GEX).mpr (by decide),
   c6_amended.2.2.2.2 ["# note".toList] (by decide)⟩

theorem lookup_append_of_none {β : Type} {m m2 : List (Symbol × β)} {a : Symbol}
    (h : m.lookup a = none) : (m ++ m2).lookup a = m2.lookup a := by
  induction m with
  | nil => rfl
  | cons e es ih =>
      rcases e with ⟨k, v⟩
      by_cases hab : a = k
      · simp [List.lookup, hab] at h
      · simp only [List.cons_append, List.lookup, beq_eq_false_iff_ne.mpr hab] at h ⊢
        exact ih h

theorem lookup_append_of_some {β : Type} {m m2 : List (Symbol × β)} {a : Symbol}
    {v : β} (h : m.lookup a = some v) : (m ++ m2).lookup a = some v := by
  induction m with
  | nil => simp [List.lookup] at h
  | cons e es ih =>
      rcases e with ⟨k, w⟩
      by_cases hab : a = k
      · simp only [List.lookup, beq_iff_eq.mpr hab] at h ⊢
        exact h
      · simp only [List.cons_append, List.lookup, beq_eq_false_iff_ne.mpr hab] at h ⊢
        exact ih h

theorem lookup_map_upd {β : Type} {m : List (Symbol × β)} {k k' : Symbol} {v : β}
    (hne : k' ≠ k) :
    (m.map (fun e => if e.1 = k then (e.1, v) else e)).lookup k' = m.lookup k' := by
  induction m with
  | nil => rfl
  | cons e es ih =>
      rcases e with ⟨ek, ev⟩
      simp only [List.map_cons]
      by_cases hek : ek = k
      · rw [if_pos hek]
        have hne2 : (k' == ek) = false :=
          beq_eq_false_iff_ne.mpr (fun h => hne (h.trans hek))
        simp [List.lookup, hne2, ih]
      · rw [if_neg hek]
        by_cases hab : k' = ek
        · subst hab
          simp [List.lookup]
        · simp [List.lookup, beq_eq_false_iff_ne.mpr hab, ih]

theorem lookup_map_self {β : Type} {m : List (Symbol × β)} {k : Symbol} {s v : β}
    (h : m.lookup k = some s) :
    (m.map (fun e => if e.1 = k then (e.1, v) else e)).lookup k = some v := by
  induction m with
  | nil => simp [List.lookup] at h
  | cons e es ih =>
      rcases e with ⟨ek, ev⟩
      simp only [List.map_cons]
      by_cases hab : k = ek
      · subst hab
        rw [if_pos rfl]
        simp [List.lookup]
      · have hek : ¬ek = k := fun h2 => hab h2.symm
        rw [if_neg hek]
        simp only [List.lookup, beq_eq_false_iff_ne.mpr hab] at h
        simp [List.lookup, beq_eq_false_iff_ne.mpr hab, ih h]

theorem lookup_insertRule {m : List (Symbol × List (List Symbol))} {k : Symbol}
    {r : List Symbol} (k' : Symbol) :
    (insertRule m k r).lookup k' =
      if k' = k then some (((m.lookup k).getD []) ++ [r]) else m.lookup k' := by
  unfold insertRule
  cases h : m.lookup k with
  | none =>
      by_cases hk : k' = k
      · subst hk
        rw [if_pos rfl, lookup_append_of_none h]
        simp [List.lookup]
      · rw [if_neg hk]
        cases h2 : m.lookup k' with
        | some v => exact lookup_append_of_some h2
        | none =>
            rw [lookup_append_of_none h2]
            simp [List.lookup, beq_eq_false_iff_ne.mpr hk]
  | some s =>
      by_cases hk : k' = k
      · subst hk
        rw [if_pos rfl]
        dsimp only
        rw [lookup_map_self h]
        rfl
      · rw [if_neg hk]
        dsimp only
        exact lookup_map_upd hk

theorem mem_getD_insertRule {m : List (Symbol × List (List Symbol))} {k : Symbol}
    {r : List Symbol} {k' : Symbol} {f : List Symbol} :
    f ∈ ((insertRule m k r).lookup k').getD [] ↔
      f ∈ ((m.lookup k').getD []) ∨ (k' = k ∧ f = r) := by
  rw [lookup_insertRule k']
  by_cases hk : k' = k
  · subst hk
    rw [if_pos rfl]
    simp [List.mem_append]
  · rw [if_neg hk]
    simp [hk]

theorem buildRules_append {ps : List Production} {p : Production} :
    buildRules (ps ++ [p]) = insertRule (buildRules ps) (Symbol.N p.left) p.right := by
  simp [buildRules, List.foldl_append]

theorem mem_buildRules {ps : List Production} {k : Symbol} {f : List Symbol} :
    f ∈ (((buildRules ps).lookup k).getD []) ↔
      ∃ p ∈ ps, Symbol.N p.left = k ∧ p.right = f := by
  induction ps using List.reverseRecOn with
  | nil => simp [buildRules, List.lookup]
  | append_singleton ps p ih =>
      rw [buildRules_append, mem_getD_insertRule, ih]
      constructor
      · rintro (⟨q, hq, h1, h2⟩ | ⟨h1, h2⟩)
        · exact ⟨q, List.mem_append_left _ hq, h1, h2⟩
        · exact ⟨p, List.mem_append_right _ (List.mem_singleton_self p), h1.symm, h2.symm⟩
      · rintro ⟨q, hq, h1, h2⟩
        rcases List.mem_append.mp hq with h | h
        · exact Or.inl ⟨q, h, h1, h2⟩
        · rw [List.mem_singleton.mp h] at h1 h2
          exact Or.inr ⟨h1.symm, h2.symm⟩

/-- C5, amended: the generator's initial worklist contains exactly the
right-hand-side alternatives that the simplified grammar assigns to the
ORIGINAL grammar's start symbol (`grammar.start`), which is empty
whenever that symbol no longer has productions — not the alternatives of
the simplified grammar's own (possibly freshly introduced) start. -/
theorem c5_amended (g : CFG) (lmin lmax : Nat) (lft : Bool) (g1 : CFG)
    (st : GenState) (hs : simplify g = some g1)
    (hg : generatorNew g lmin lmax lft = some st) :
    ∀ f : List Symbol, f ∈ st.queue ↔
      ∃ p ∈ g1.productions, p.left = g.start ∧ p.right = f := by
  intro f
  simp only [generatorNew, hs] at hg
  have hq : st.queue = (((buildRules g1.productions).lookup (Symbol.N g.start)).getD []) := by
    cases hl : (buildRules g1.productions).lookup (Symbol.N g.start) with
    | none =>
        rw [hl] at hg
        simp only [Option.some.injEq] at hg
        rw [← hg]
        rfl
    | some cases1 =>
        rw [hl] at hg
        simp only [Option.some.injEq] at hg
        rw [← hg]
        rfl
  rw [hq, mem_buildRules]
  constructor
  · rintro ⟨p, hp, h1, h2⟩
    exact ⟨p, hp, by injection h1, h2⟩
  · rintro ⟨p, hp, h1, h2⟩
    exact ⟨p, hp, by rw [h1], h2⟩

/-- C5, witness: the amended theorem applied to the grammar `S -> a`
with bounds 1..1: the worklist is exactly the single alternative `a` of
the original start `S`. -/
theorem c5_amended_witness :
    [Symbol.T 'a'] ∈ (GenState.mk true [(Symbol.N 'S', [[Symbol.T 'a']])] 1 1
      [[Symbol.T 'a']]).queue ↔
      ∃ p ∈ GW.productions, p.left = GW.start ∧ p.right = [Symbol.T 'a'] :=
  c5_amended GW 1 1 true GW _ (by decide) (by decide) [Symbol.T 'a']

theorem subset_foldl_insert (l : List Symbol) (acc : Finset Symbol) :
    acc ⊆ l.foldl (fun a s => insert s a) acc :=
  foldl_ext (fun a x => Finset.subset_insert x a) l acc

theorem mem_foldl_insert {s : Symbol} {l : List Symbol} (h : s ∈ l)
    (acc : Finset Symbol) : s ∈ l.foldl (fun a x => insert x a) acc :=
  foldl_mem_step (fun a x => Finset.subset_insert x a) l acc h
    (fun b _ => Finset.mem_insert_self s b)

theorem subset_foldr_insert (l : List Symbol) (acc : Finset Symbol) :
    acc ⊆ l.foldr insert acc := by
  induction l with
  | nil => exact Finset.Subset.refl acc
  | cons s t ih => exact ih.trans (Finset.subset_insert s _)

theorem mem_foldr_insert {s : Symbol} {l : List Symbol} (h : s ∈ l)
    (acc : Finset Symbol) : s ∈ l.foldr insert acc := by
  induction l with
  | nil => exact absurd h (List.not_mem_nil s)
  | cons x t ih =>
      rcases List.mem_cons.mp h with h1 | h1
      · subst h1; exact Finset.mem_insert_self s _
      · exact Finset.mem_insert_of_mem (ih h1)

theorem mem_allRhsSyms_of {ps : List Production} {p : Production} (hp : p ∈ ps)
    {s : Symbol} (hs : s ∈ p.right) : s ∈ allRhsSyms ps := by
  unfold allRhsSyms
  induction ps with
  | nil => exact absurd hp (List.not_mem_nil p)
  | cons q l ih =>
      simp only [List.foldr_cons]
      rcases List.mem_cons.mp hp with h | h
      · subst h; exact mem_foldr_insert hs _
      · exact subset_foldr_insert q.right _ (ih h)

theorem reachBody_ext (a : Finset Symbol) (p : Production) : a ⊆ reachBody a p := by
  unfold reachBody
  split
  · exact subset_foldl_insert p.right a
  · exact Finset.Subset.refl a

theorem reachStep_ext (ps : List Production) (S : Finset Symbol) :
    S ⊆ reachStep ps S := by
  unfold reachStep
  exact foldl_ext reachBody_ext ps S

theorem reachStep_bound (ps : List Production) (S : Finset Symbol) :
    reachStep ps S ⊆ S ∪ allRhsSyms ps := by
  unfold reachStep
  apply foldl_bound
  intro a p hp
  unfold reachBody
  split
  · apply foldl_bound
    intro b s hs
    exact Finset.insert_subset
      (Finset.mem_union_right b (mem_allRhsSyms_of hp hs))
      Finset.subset_union_left
  · exact Finset.subset_union_left

theorem reachSet_fix (g : CFG) :
    reachStep g.productions (reachSet g) = reachSet g := by
  unfold reachSet
  exact iterStep_fix (reachStep g.productions) (allRhsSyms g.productions)
    (reachStep_ext g.productions) (fun S => reachStep_bound g.productions S)
    {Symbol.N g.start}

theorem reach_closed {g : CFG} {p : Production} (hp : p ∈ g.productions)
    (hl : Symbol.N p.left ∈ reachSet g) : ∀ s ∈ p.right, s ∈ reachSet g := by
  intro s hs
  have hfix : reachStep g.productions (reachSet g) = reachSet g := reachSet_fix g
  have heq : reachBody (reachSet g) p = reachSet g :=
    foldl_eq_self reachBody_ext g.productions (reachSet g) hfix p hp
  rw [← heq]
  unfold reachBody
  rw [if_pos hl]
  exact mem_foldl_insert hs _

theorem reachSet_sound {g : CFG} :
    ∀ s ∈ reachSet g, ReachP g.productions g.start s := by
  have hstep : ∀ S : Finset Symbol,
      (∀ s ∈ S, ReachP g.productions g.start s) →
      ∀ s ∈ reachStep g.productions S, ReachP g.productions g.start s := by
    intro S hS
    refine @foldl_inv Symbol _ Production reachBody
      (fun T => ∀ s ∈ T, ReachP g.productions g.start s) g.productions S hS ?_
    intro a p hp ha
    unfold reachBody
    split
    next hmem =>
      refine @foldl_inv Symbol _ Symbol (fun b s => insert s b)
        (fun T => ∀ s ∈ T, ReachP g.productions g.start s) p.right a ha ?_
      intro b s hs hb x hx
      rcases Finset.mem_insert.mp hx with h1 | h1
      · subst h1; exact ReachP.step p hp (ha _ hmem) x hs
      · exact hb x h1
    · exact ha
  exact @iterStep_inv Symbol _ (reachStep g.productions)
    (fun S => ∀ s ∈ S, ReachP g.productions g.start s) hstep
    ((allRhsSyms g.productions).card + 1) {Symbol.N g.start}
    (fun s hs => by
      rw [Finset.mem_singleton] at hs
      subst hs
      exact ReachP.base)

theorem reachSet_complete {g : CFG} {s : Symbol}
    (h : ReachP g.productions g.start s) : s ∈ reachSet g := by
  induction h with
  | base =>
      exact iterStep_subset (fun S => reachStep_ext g.productions S) _ _
        (Finset.mem_singleton_self _)
  | step p hp hl s2 hs ih => exact reach_closed hp ih s2 hs

/-- C7, counterexample: for `S -> ε | a`, the first `simplify` produces
the start `Я` with productions `Я -> ε | a`; applying `simplify` again
replaces the start by the fresh symbol `Ю`, so the two production sets
differ (`Ю -> ε` belongs to the second but not the first). -/
theorem c7_counterexample :
    ((simplify G5).bind simplify).map
        (fun g2 => decide (Production.mk 'Ю' [] ∈ g2.productions)) = some true ∧
    (simplify G5).map
        (fun g1 => decide (Production.mk 'Ю' [] ∈ g1.productions)) = some false := by
  refine ⟨by decide, by decide⟩

theorem mem_remove_useless {g : CFG} {p : Production} :
    p ∈ (remove_useless_rules g).productions ↔
      p ∈ g.productions ∧ p.left ∈ genSet g.productions ∧
        rightNonterms p ⊆ genSet g.productions := by
  show p ∈ g.productions.filter _ ↔ _
  rw [List.mem_filter]
  simp only [Bool.and_eq_true, decide_eq_true_eq, and_assoc]

theorem mem_remove_unreachable {g : CFG} {p : Production} :
    p ∈ (remove_unreachable_rules g).productions ↔
      p ∈ g.productions ∧ Symbol.N p.left ∈ reachSet g ∧
        ∀ s ∈ p.right, s ∈ reachSet g := by
  show p ∈ g.productions.filter _ ↔ _
  rw [List.mem_filter]
  simp only [Bool.and_eq_true, decide_eq_true_eq, List.all_eq_true, and_assoc]

theorem mem_remove_unit {g : CFG} {p2 : Production} :
    p2 ∈ (remove_unit_rules g).productions ↔
      (p2 ∈ g.productions ∧ isUnit p2 = false) ∨
      (∃ p ∈ g.productions, ∃ b, p.right = [Symbol.N b] ∧
        b ∈ unitClosure g p.left ∧
        ∃ r ∈ g.productions, r.left = b ∧ nonUnitRhs r = true ∧
          p2 = ⟨p.left, r.right⟩) := by
  show p2 ∈ g.productions.flatMap _ ↔ _
  rw [List.mem_flatMap]
  constructor
  · rintro ⟨p, hp, hmem⟩
    cases hr : p.right with
    | nil =>
        rw [hr] at hmem
        dsimp only at hmem
        rw [List.mem_singleton.mp hmem]
        exact Or.inl ⟨hp, by simp [isUnit, hr]⟩
    | cons s t =>
        cases s with
        | T c =>
            rw [hr] at hmem
            dsimp only at hmem
            rw [List.mem_singleton.mp hmem]
            exact Or.inl ⟨hp, by simp [isUnit, hr]⟩
        | N c =>
            cases t with
            | cons s2 t2 =>
                rw [hr] at hmem
                dsimp only at hmem
                rw [List.mem_singleton.mp hmem]
                exact Or.inl ⟨hp, by simp [isUnit, hr]⟩
            | nil =>
                rw [hr] at hmem
                dsimp only at hmem
                by_cases hb : c ∈ unitClosure g p.left
                · rw [if_pos hb] at hmem
                  rcases List.mem_map.mp hmem with ⟨r, hrf, heq⟩
                  rcases List.mem_filter.mp hrf with ⟨hrg, hcond⟩
                  have hcond2 : r.left = c ∧ nonUnitRhs r = true := by
                    simpa using hcond
                  exact Or.inr ⟨p, hp, c, hr, hb,
                    r, hrg, hcond2.1, hcond2.2, heq.symm⟩
                · rw [if_neg hb] at hmem
                  exact absurd hmem (List.not_mem_nil p2)
  · rintro (⟨hp, hu⟩ | ⟨p, hp, b, hr, hb, r, hrg, hrl, hnu, heq⟩)
    · refine ⟨p2, hp, ?_⟩
      unfold isUnit at hu
      cases hr : p2.right with
      | nil => exact List.mem_singleton_self p2
      | cons s t =>
          cases s with
          | T c => exact List.mem_singleton_self p2
          | N c =>
              cases t with
              | cons s2 t2 => exact List.mem_singleton_self p2
              | nil => rw [hr] at hu; simp at hu
    · refine ⟨p, hp, ?_⟩
      rw [hr]
      dsimp only
      rw [if_pos hb]
      refine List.mem_map.mpr ⟨r, List.mem_filter.mpr ⟨hrg, ?_⟩, by rw [heq]⟩
      simp [hrl, hnu]

theorem left_mem_variables {g : CFG} {p : Production} (hp : p ∈ g.productions) :
    p.left ∈ g.variables :=
  mem_variables.mpr ⟨p, hp, Or.inl rfl⟩

theorem rhs_mem_variables {g : CFG} {p : Production} (hp : p ∈ g.productions)
    {c : Char} (hc : Symbol.N c ∈ p.right) : c ∈ g.variables :=
  mem_variables.mpr ⟨p, hp, Or.inr hc⟩

theorem get_new_start_not_var {g : CFG} {ns : Char}
    (h : get_new_start g = some ns) : ns ∉ g.variables := by
  unfold get_new_start at h
  have hmem : ns ∈ ALPHA.filter (fun c => decide (c ∉ g.variables)) :=
    List.mem_of_mem_getLast? h
  exact decide_eq_true_eq.mp (List.mem_filter.mp hmem).2

theorem hasEpsFlag_true_exists {ps : List Production} {start : Char} :
    hasEpsFlag ps start = true → ∃ p ∈ ps, p.right = [] ∧ p.left = start := by
  unfold hasEpsFlag
  have haux : ∀ (l : List Production) (b : Bool),
      l.foldl (fun b p => if p.right = [] then decide (p.left = start) else b) b
        = true →
      (∃ p ∈ l, p.right = [] ∧ p.left = start) ∨ b = true := by
    intro l
    induction l with
    | nil => intro b h; exact Or.inr h
    | cons p t ih =>
        intro b h
        rw [List.foldl_cons] at h
        rcases ih _ h with h1 | h1
        · rcases h1 with ⟨q, hq, h2, h3⟩
          exact Or.inl ⟨q, List.mem_cons_of_mem p hq, h2, h3⟩
        · by_cases he : p.right = []
          · rw [if_pos he] at h1
            exact Or.inl ⟨p, List.mem_cons_self p t, he, decide_eq_true_eq.mp h1⟩
          · rw [if_neg he] at h1
            exact Or.inr h1
  intro h
  rcases haux ps false h with h1 | h1
  · exact h1
  · exact absurd h1 (by simp)

theorem mem_epsVariants {ps : List Production} {nul : Finset Char}
    {p2 : Production} (h : p2 ∈ epsVariants ps nul) :
    p2.right ≠ [] ∧ ∃ p ∈ ps, p2.left = p.left ∧ ∀ s ∈ p2.right, s ∈ p.right := by
  unfold epsVariants at h
  rcases List.mem_flatMap.mp h with ⟨p, hp, hmem⟩
  rcases List.mem_filterMap.mp hmem with ⟨idx, _, hf⟩
  cases hg : p.right.get? idx with
  | none => rw [hg] at hf; exact absurd hf (by simp)
  | some s =>
      cases s with
      | T c => rw [hg] at hf; exact absurd hf (by simp)
      | N n =>
          rw [hg] at hf
          dsimp only at hf
          by_cases hn : n ∈ nul
          · rw [if_pos hn] at hf
            by_cases hcond : p.right.eraseIdx idx ≠ [] ∧
                isSelfUnit p.left (p.right.eraseIdx idx) = false
            · rw [if_pos hcond] at hf
              have hp2 : p2 = ⟨p.left, p.right.eraseIdx idx⟩ :=
                (Option.some.inj hf).symm
              subst hp2
              exact ⟨hcond.1, p, hp, rfl,
                fun s hs => List.mem_of_mem_eraseIdx hs⟩
            · rw [if_neg hcond] at hf
              exact absurd hf (by simp)
          · rw [if_neg hn] at hf
            exact absurd hf (by simp)

/-- Case analysis of the result of `remove_epsilon_rules`. -/
theorem remove_epsilon_cases {g ge : CFG} (h : remove_epsilon_rules g = some ge) :
    (∃ ns, get_new_start g = some ns ∧ ge.start = ns ∧
      g.start ∈ nullableSet g.productions ∧
      hasEpsFlag g.productions g.start = true ∧
      ge.productions = (g.productions.filter (fun p => !p.right.isEmpty)) ++
        epsVariants g.productions (nullableSet g.productions) ++
        [⟨ns, []⟩, ⟨ns, [Symbol.N g.start]⟩]) ∨
    (ge.start = g.start ∧
      ge.productions = (g.productions.filter (fun p => !p.right.isEmpty)) ++
        epsVariants g.productions (nullableSet g.productions)) := by
  unfold remove_epsilon_rules at h
  by_cases hc : g.start ∈ nullableSet g.productions ∧
      hasEpsFlag g.productions g.start = true
  · rw [if_pos hc] at h
    cases hn : get_new_start g with
    | none => rw [hn] at h; exact absurd h (by simp)
    | some ns =>
        rw [hn] at h
        dsimp only at h
        have hge : ge = ⟨ns, (g.productions.filter (fun p => !p.right.isEmpty)) ++
            epsVariants g.productions (nullableSet g.productions) ++
            [⟨ns, []⟩, ⟨ns, [Symbol.N g.start]⟩]⟩ := (Option.some.inj h).symm
        subst hge
        exact Or.inl ⟨ns, rfl, rfl, hc.1, hc.2, rfl⟩
  · rw [if_neg hc] at h
    have hge : ge = ⟨g.start, (g.productions.filter (fun p => !p.right.isEmpty)) ++
        epsVariants g.productions (nullableSet g.productions)⟩ :=
      (Option.some.inj h).symm
    subst hge
    exact Or.inr ⟨rfl, rfl⟩

theorem eps_out_eps {g ge : CFG} (h : remove_epsilon_rules g = some ge)
    {p : Production} (hp : p ∈ ge.productions) (he : p.right = []) :
    p.left ∉ g.variables ∧ g.start ∈ g.variables ∧ ge.start = p.left := by
  rcases remove_epsilon_cases h with
    ⟨ns, hns, hstart, _, hflag, hprods⟩ | ⟨_, hprods⟩
  · rw [hprods] at hp
    rcases List.mem_append.mp hp with h1 | h1
    · rcases List.mem_append.mp h1 with h2 | h2
      · have h3 := (List.mem_filter.mp h2).2
        rw [he] at h3
        simp at h3
      · exact absurd he (mem_epsVariants h2).1
    · rcases List.mem_cons.mp h1 with h2 | h2
      · obtain ⟨q, hq, hqr, hql⟩ := hasEpsFlag_true_exists hflag
        have hgs : g.start ∈ g.variables := hql ▸ left_mem_variables hq
        rw [h2]
        exact ⟨get_new_start_not_var hns, hgs, hstart⟩
      · rw [List.mem_singleton.mp h2] at he
        exact absurd he (by simp)
  · rw [hprods] at hp
    rcases List.mem_append.mp hp with h2 | h2
    · have h3 := (List.mem_filter.mp h2).2
      rw [he] at h3
      simp at h3
    · exact absurd he (mem_epsVariants h2).1

theorem eps_out_rhs {g ge : CFG} (h : remove_epsilon_rules g = some ge)
    {p : Production} (hp : p ∈ ge.productions) {c : Char}
    (hc : Symbol.N c ∈ p.right) : c ∈ g.variables := by
  rcases remove_epsilon_cases h with
    ⟨ns, _, _, _, hflag, hprods⟩ | ⟨_, hprods⟩
  · rw [hprods] at hp
    rcases List.mem_append.mp hp with h1 | h1
    · rcases List.mem_append.mp h1 with h2 | h2
      · exact rhs_mem_variables (List.mem_filter.mp h2).1 hc
      · obtain ⟨_, q, hq, _, hsub⟩ := mem_epsVariants h2
        exact rhs_mem_variables hq (hsub _ hc)
    · rcases List.mem_cons.mp h1 with h2 | h2
      · rw [h2] at hc
        exact absurd hc (List.not_mem_nil _)
      · rw [List.mem_singleton.mp h2] at hc
        have hcs : c = g.start := by
          rcases List.mem_singleton.mp hc with h3
          injection h3 with h4
        obtain ⟨q, hq, _, hql⟩ := hasEpsFlag_true_exists hflag
        rw [hcs, ← hql]
        exact left_mem_variables hq
  · rw [hprods] at hp
    rcases List.mem_append.mp hp with h2 | h2
    · exact rhs_mem_variables (List.mem_filter.mp h2).1 hc
    · obtain ⟨_, q, hq, _, hsub⟩ := mem_epsVariants h2
      exact rhs_mem_variables hq (hsub _ hc)

theorem unit_out_rhs_src {g : CFG} {p2 : Production}
    (hp : p2 ∈ (remove_unit_rules g).productions) :
    ∃ r ∈ g.productions, p2.right = r.right := by
  rcases mem_remove_unit.mp hp with ⟨h1, _⟩ | ⟨_, _, _, _, _, r, hrg, _, _, heq⟩
  · exact ⟨p2, h1, rfl⟩
  · exact ⟨r, hrg, by rw [heq]⟩

theorem unit_out_eps_left {g : CFG} {p2 : Production}
    (hp : p2 ∈ (remove_unit_rules g).productions) (he : p2.right = []) :
    (∃ q ∈ g.productions, q.left = p2.left ∧ q.right = []) ∨
    (∃ q ∈ g.productions, ∃ b, q.left = p2.left ∧ q.right = [Symbol.N b] ∧
      ∃ r ∈ g.productions, r.left = b ∧ r.right = []) := by
  rcases mem_remove_unit.mp hp with
    ⟨h1, _⟩ | ⟨p, hpg, b, hr, _, r, hrg, hrl, _, heq⟩
  · exact Or.inl ⟨p2, h1, rfl, he⟩
  · rw [heq] at he
    refine Or.inr ⟨p, hpg, b, by rw [heq], hr, r, hrg, hrl, he⟩

theorem nonUnitRhs_isUnit {r : Production} {x : Char}
    (h : nonUnitRhs r = true) : isUnit ⟨x, r.right⟩ = false := by
  unfold nonUnitRhs at h
  unfold isUnit
  cases hr : r.right with
  | nil => rfl
  | cons s t =>
      cases s with
      | T c => cases t with | nil => rfl | cons a b => rfl
      | N c =>
          cases t with
          | cons a b => rfl
          | nil =>
              rw [hr] at h
              simp [Symbol.isTerminal, Symbol.isNonterminal] at h

theorem unit_out_unitFree {g : CFG} {p2 : Production}
    (hp : p2 ∈ (remove_unit_rules g).productions) : isUnit p2 = false := by
  rcases mem_remove_unit.mp hp with ⟨_, h2⟩ | ⟨p, _, b, _, _, r, _, _, hnu, heq⟩
  · exact h2
  · rw [heq]
    exact nonUnitRhs_isUnit hnu

theorem simplify_decomp {g g1 : CFG} (h : simplify g = some g1) :
    ∃ ge, remove_epsilon_rules g = some ge ∧
      g1 = remove_unreachable_rules (remove_useless_rules (remove_unit_rules ge)) := by
  unfold simplify at h
  cases he : remove_epsilon_rules g with
  | none => rw [he] at h; exact absurd h (by simp)
  | some ge =>
      rw [he] at h
      exact ⟨ge, rfl, (Option.some.inj h).symm⟩

/-- L1: every epsilon production surviving `simplify` has a left symbol
that occurs in no right-hand side of the simplified grammar and differs
from the original grammar's start symbol. -/
theorem simplify_eps_left {g g1 : CFG} (h : simplify g = some g1)
    {p : Production} (hp : p ∈ g1.productions) (he : p.right = []) :
    (∀ q ∈ g1.productions, Symbol.N p.left ∉ q.right) ∧ p.left ≠ g.start := by
  obtain ⟨ge, heq, hg1⟩ := simplify_decomp h
  have hsub : ∀ x, x ∈ g1.productions → x ∈ (remove_unit_rules ge).productions := by
    intro x hx
    rw [hg1] at hx
    exact (mem_remove_useless.mp (mem_remove_unreachable.mp hx).1).1
  have hpu := hsub p hp
  have hkey : p.left ∉ g.variables ∧ g.start ∈ g.variables := by
    rcases unit_out_eps_left hpu he with
      ⟨q, hq, hql, hqr⟩ | ⟨q, hq, b, _, hqr, r, hrg, hrl, hrr⟩
    · have h3 := eps_out_eps heq hq hqr
      exact ⟨hql ▸ h3.1, h3.2.1⟩
    · have h3 := eps_out_eps heq hrg hrr
      have h4 := eps_out_rhs heq hq (by rw [hqr]; exact List.mem_singleton_self _)
      rw [hrl] at h3
      exact absurd h4 h3.1
  refine ⟨?_, ?_⟩
  · intro q hq hcon
    obtain ⟨r, hrg, hrr⟩ := unit_out_rhs_src (hsub q hq)
    rw [hrr] at hcon
    exact hkey.1 (eps_out_rhs heq hrg hcon)
  · intro hceq
    rw [hceq] at hkey
    exact hkey.1 hkey.2

/-- L2: the simplified grammar contains no unit production. -/
theorem simplify_unitFree {g g1 : CFG} (h : simplify g = some g1) :
    ∀ p ∈ g1.productions, isUnit p = false := by
  obtain ⟨ge, _, hg1⟩ := simplify_decomp h
  intro p hp
  rw [hg1] at hp
  exact unit_out_unitFree ((mem_remove_useless.mp (mem_remove_unreachable.mp hp).1).1)

theorem GenP_inv {ps : List Production} {c : Char} (h : GenP ps c) :
    ∃ q ∈ ps, q.left = c ∧ q.right ≠ [] ∧ ∀ d ∈ rightNonterms q, GenP ps d := by
  cases h with
  | step q hq hne hsub => exact ⟨q, hq, rfl, hne, hsub⟩

theorem GenP_useless {g : CFG} {c : Char} (h : GenP g.productions c) :
    GenP (remove_useless_rules g).productions c := by
  induction h with
  | step p hp hne hsub ih =>
      have hpf : p ∈ (remove_useless_rules g).productions :=
        mem_remove_useless.mpr ⟨hp, genSet_complete (GenP.step p hp hne hsub),
          fun d hd => genSet_complete (hsub d hd)⟩
      exact GenP.step p hpf hne ih

/-- L3: every nonterminal occurring in a right-hand side of the
simplified grammar has at least one production there. -/
theorem simplify_rhs_has_rule {g g1 : CFG} (h : simplify g = some g1) :
    ∀ p ∈ g1.productions, ∀ c, Symbol.N c ∈ p.right →
      ∃ q ∈ g1.productions, q.left = c := by
  obtain ⟨ge, _, hg1⟩ := simplify_decomp h
  intro p hp c hc
  rw [hg1] at hp ⊢
  obtain ⟨hp3, _, hreachR⟩ := mem_remove_unreachable.mp hp
  obtain ⟨_, _, hgenR⟩ := mem_remove_useless.mp hp3
  have hcgen := hgenR (mem_rightNonterms.mpr hc)
  obtain ⟨q, hq, hql, _, _⟩ := GenP_inv (GenP_useless (genSet_sound c hcgen))
  have hcreach : Symbol.N c ∈ reachSet (remove_useless_rules (remove_unit_rules ge)) :=
    hreachR _ hc
  refine ⟨q, mem_remove_unreachable.mpr ⟨hq, ?_, ?_⟩, hql⟩
  · rw [hql]
    exact hcreach
  · exact reach_closed hq (by rw [hql]; exact hcreach)

theorem iterStep_stable {α : Type} {step : Finset α → Finset α} {S : Finset α}
    (h : step S = S) : ∀ n, iterStep step n S = S := by
  intro n
  induction n with
  | zero => rfl
  | succ m ih =>
      show iterStep step m (step S) = S
      rw [h]
      exact ih

theorem nullableStep_empty : ∀ ps : List Production,
    (∀ p ∈ ps, p.right ≠ []) → nullableStep ps ∅ = ∅ := by
  intro ps
  induction ps with
  | nil => intro _; rfl
  | cons p t ih =>
      intro h
      have hne := h p (List.mem_cons_self p t)
      have hall : p.right.all (symNullable ∅) = false := by
        cases hr : p.right with
        | nil => exact absurd hr hne
        | cons s t2 =>
            cases s with
            | N c => simp [symNullable]
            | T c => simp [symNullable]
      have hstep : nullableStep (p :: t) ∅ = nullableStep t ∅ := by
        show nullableStep t
          (let acc1 := if p.right = [] then insert p.left ∅ else ∅
           if p.right.all (symNullable acc1) then insert p.left acc1 else acc1) =
          nullableStep t ∅
        congr 1
        simp [hne, hall]
      rw [hstep]
      exact ih (fun q hq => h q (List.mem_cons_of_mem p hq))

theorem nullableSet_empty {ps : List Production}
    (h : ∀ p ∈ ps, p.right ≠ []) : nullableSet ps = ∅ := by
  unfold nullableSet
  exact iterStep_stable (nullableStep_empty ps h) _

theorem hasEpsFlag_false {ps : List Production} {start : Char}
    (h : ∀ p ∈ ps, p.right ≠ []) : hasEpsFlag ps start = false := by
  unfold hasEpsFlag
  have haux : ∀ (l : List Production) (b : Bool), (∀ p ∈ l, p.right ≠ []) →
      l.foldl (fun b p => if p.right = [] then decide (p.left = start) else b) b = b := by
    intro l
    induction l with
    | nil => intro b _; rfl
    | cons p t ih =>
        intro b hl
        rw [List.foldl_cons, if_neg (hl p (List.mem_cons_self p t))]
        exact ih b (fun q hq => hl q (List.mem_cons_of_mem p hq))
  exact haux ps false h

theorem epsVariants_empty (ps : List Production) : epsVariants ps ∅ = [] := by
  unfold epsVariants
  rw [List.flatMap_eq_nil_iff]
  intro p _
  rw [List.filterMap_eq_nil_iff]
  intro idx _
  cases hg : p.right.get? idx with
  | none => rfl
  | some s =>
      cases s with
      | T c => rfl
      | N n =>
          dsimp only
          rw [if_neg (Finset.not_mem_empty n)]

/-- On an epsilon-free grammar, `remove_epsilon_rules` is the identity. -/
theorem remove_epsilon_id {g : CFG} (h : ∀ p ∈ g.productions, p.right ≠ []) :
    remove_epsilon_rules g = some g := by
  have hnul : nullableSet g.productions = ∅ := nullableSet_empty h
  have hcond : ¬(g.start ∈ nullableSet g.productions ∧
      hasEpsFlag g.productions g.start = true) := by
    rw [hnul]
    rintro ⟨h1, _⟩
    exact absurd h1 (Finset.not_mem_empty _)
  have hfil : g.productions.filter (fun p => !p.right.isEmpty) = g.productions := by
    rw [List.filter_eq_self]
    intro p hp
    simp [List.isEmpty_iff, h p hp]
  simp only [remove_epsilon_rules]
  rw [if_neg hcond, hnul, epsVariants_empty, List.append_nil, hfil]

/-- On a unit-free grammar, `remove_unit_rules` is the identity. -/
theorem remove_unit_id {g : CFG} (h : ∀ p ∈ g.productions, isUnit p = false) :
    remove_unit_rules g = g := by
  have haux : ∀ l : List Production, (∀ p ∈ l, isUnit p = false) →
      (l.flatMap (fun p =>
        match p.right with
        | [Symbol.N b] =>
            if b ∈ unitClosure g p.left then
              (g.productions.filter (fun r => decide (r.left = b) && nonUnitRhs r)).map
                (fun r => ⟨p.left, r.right⟩)
            else []
        | _ => [p])) = l := by
    intro l
    induction l with
    | nil => intro _; rfl
    | cons p t ih =>
        intro hl
        rw [List.flatMap_cons]
        have hp : (match p.right with
            | [Symbol.N b] =>
                if b ∈ unitClosure g p.left then
                  (g.productions.filter
                    (fun r => decide (r.left = b) && nonUnitRhs r)).map
                    (fun r => (⟨p.left, r.right⟩ : Production))
                else []
            | _ => [p]) = [p] := by
          have hu := hl p (List.mem_cons_self p t)
          unfold isUnit at hu
          cases hr : p.right with
          | nil => rfl
          | cons s t2 =>
              cases s with
              | T c => cases t2 with | nil => rfl | cons a b => rfl
              | N c =>
                  cases t2 with
                  | cons a b => rfl
                  | nil => rw [hr] at hu; simp at hu
        rw [hp]
        rw [ih (fun q hq => hl q (List.mem_cons_of_mem p hq))]
        rfl
  show (⟨g.start, _⟩ : CFG) = g
  rw [haux g.productions h]

/-- When every production already passes the generating filter,
`remove_useless_rules` is the identity. -/
theorem remove_useless_id {g : CFG}
    (h : ∀ p ∈ g.productions, p.left ∈ genSet g.productions ∧
      rightNonterms p ⊆ genSet g.productions) : remove_useless_rules g = g := by
  show (⟨g.start, _⟩ : CFG) = g
  have hfil : g.productions.filter (fun p =>
      decide (p.left ∈ genSet g.productions) &&
        decide (rightNonterms p ⊆ genSet g.productions)) = g.productions := by
    rw [List.filter_eq_self]
    intro p hp
    simp [(h p hp).1, (h p hp).2]
  rw [hfil]

/-- When every production already passes the reachability filter,
`remove_unreachable_rules` is the identity. -/
theorem remove_unreachable_id {g : CFG}
    (h : ∀ p ∈ g.productions, Symbol.N p.left ∈ reachSet g ∧
      ∀ s ∈ p.right, s ∈ reachSet g) : remove_unreachable_rules g = g := by
  show (⟨g.start, _⟩ : CFG) = g
  have hfil : g.productions.filter (fun p =>
      decide (Symbol.N p.left ∈ reachSet g) &&
        p.right.all (fun s => decide (s ∈ reachSet g))) = g.productions := by
    rw [List.filter_eq_self]
    intro p hp
    have h1 := (h p hp).1
    have h2 := (h p hp).2
    simp only [Bool.and_eq_true, decide_eq_true_eq, List.all_eq_true]
    exact ⟨h1, fun s hs => h2 s hs⟩
  rw [hfil]

theorem GenP_unreach {g : CFG} {c : Char} (hgen : GenP g.productions c) :
    Symbol.N c ∈ reachSet g → GenP (remove_unreachable_rules g).productions c := by
  induction hgen with
  | step p hp hne hsub ih =>
      intro hreach
      have hrhs : ∀ s ∈ p.right, s ∈ reachSet g := reach_closed hp hreach
      have hpf : p ∈ (remove_unreachable_rules g).productions :=
        mem_remove_unreachable.mpr ⟨hp, hreach, hrhs⟩
      refine GenP.step p hpf hne ?_
      intro d hd
      exact ih d hd (hrhs _ (mem_rightNonterms.mp hd))

theorem ReachP_unreach {g : CFG} {s : Symbol}
    (h : ReachP g.productions g.start s) :
    ReachP (remove_unreachable_rules g).productions g.start s := by
  induction h with
  | base => exact ReachP.base
  | step p hp hl s2 hs ih =>
      have hreach : Symbol.N p.left ∈ reachSet g := reachSet_complete hl
      have hpf : p ∈ (remove_unreachable_rules g).productions :=
        mem_remove_unreachable.mpr ⟨hp, hreach, reach_closed hp hreach⟩
      exact ReachP.step p hpf ih s2 hs

/-- Every production of a simplified grammar passes both the generating
and the reachability filters of that grammar itself. -/
theorem simplify_gen_reach {g g1 : CFG} (h : simplify g = some g1) :
    ∀ p ∈ g1.productions,
      (p.left ∈ genSet g1.productions ∧
        rightNonterms p ⊆ genSet g1.productions) ∧
      (Symbol.N p.left ∈ reachSet g1 ∧ ∀ s ∈ p.right, s ∈ reachSet g1) := by
  obtain ⟨ge, _, hg1⟩ := simplify_decomp h
  subst hg1
  intro p hp
  obtain ⟨hp3, hreachL, hreachR⟩ := mem_remove_unreachable.mp hp
  obtain ⟨_, hgenL, hgenR⟩ := mem_remove_useless.mp hp3
  refine ⟨⟨?_, ?_⟩, ?_, ?_⟩
  · exact genSet_complete (GenP_unreach (GenP_useless (genSet_sound _ hgenL)) hreachL)
  · intro d hd
    have hdreach : Symbol.N d ∈
        reachSet (remove_useless_rules (remove_unit_rules ge)) :=
      hreachR _ (mem_rightNonterms.mp hd)
    exact genSet_complete
      (GenP_unreach (GenP_useless (genSet_sound _ (hgenR hd))) hdreach)
  · exact reachSet_complete (ReachP_unreach (reachSet_sound _ hreachL))
  · intro s hs
    exact reachSet_complete (ReachP_unreach (reachSet_sound _ (hreachR s hs)))

/-- C7, amended: the four-pass pipeline is idempotent exactly on the
grammars whose simplified form retains no epsilon production: if
`simplify g = some g1` and `g1` is epsilon-free, a second `simplify` is
the identity on `g1` (literally, same start and same production list);
when an epsilon production survives on the synthesized start, a second
application renames the start again and the production sets differ. -/
theorem c7_amended (g g1 : CFG) (hs : simplify g = some g1)
    (hne : ∀ p ∈ g1.productions, p.right ≠ []) : simplify g1 = some g1 := by
  have h1 : remove_epsilon_rules g1 = some g1 := remove_epsilon_id hne
  have h2 : remove_unit_rules g1 = g1 := remove_unit_id (simplify_unitFree hs)
  have hcond := simplify_gen_reach hs
  have h3 : remove_useless_rules g1 = g1 :=
    remove_useless_id (fun p hp => (hcond p hp).1)
  have h4 : remove_unreachable_rules g1 = g1 :=
    remove_unreachable_id (fun p hp => (hcond p hp).2)
  unfold simplify
  rw [h1]
  show some (remove_unreachable_rules (remove_useless_rules (remove_unit_rules g1))) =
    some g1
  rw [h2, h3, h4]

/-- C7, witness: the amended theorem applied to the grammar `S -> a`,
whose simplified form is itself and is epsilon-free. -/
theorem c7_amended_witness : simplify GW = some GW :=
  c7_amended GW GW (by decide) (by decide)

theorem exists_nonterminal_of_not_all {f : List Symbol}
    (h : f.all Symbol.isTerminal = false) : ∃ s ∈ f, s.isNonterminal = true := by
  rcases List.all_eq_false.mp h with ⟨x, hx, hpx⟩
  refine ⟨x, hx, ?_⟩
  cases x with
  | N c => rfl
  | T c => exact absurd rfl hpx

theorem leftmostNT_spec {f : List Symbol}
    (h : f.all Symbol.isTerminal = false) :
    leftmostNT f < f.length ∧
    ∃ c, f.getD (leftmostNT f) (Symbol.T 'a') = Symbol.N c ∧ Symbol.N c ∈ f := by
  obtain ⟨s, hs, hnt⟩ := exists_nonterminal_of_not_all h
  have hlt : f.findIdx Symbol.isNonterminal < f.length :=
    List.findIdx_lt_length_of_exists ⟨s, hs, hnt⟩
  refine ⟨hlt, ?_⟩
  have hget : Symbol.isNonterminal (f.get ⟨f.findIdx Symbol.isNonterminal, hlt⟩)
      = true := List.findIdx_get
  have hgd : f.getD (leftmostNT f) (Symbol.T 'a') =
      f.get ⟨f.findIdx Symbol.isNonterminal, hlt⟩ :=
    List.getD_eq_get f (Symbol.T 'a') hlt
  cases hg : f.get ⟨f.findIdx Symbol.isNonterminal, hlt⟩ with
  | T c => rw [hg] at hget; exact absurd hget (by simp [Symbol.isNonterminal])
  | N c =>
      refine ⟨c, by rw [hgd, hg], ?_⟩
      rw [← hg]
      exact List.get_mem f _ hlt

theorem rightmostNT_spec {f : List Symbol}
    (h : f.all Symbol.isTerminal = false) :
    rightmostNT f < f.length ∧
    ∃ c, f.getD (rightmostNT f) (Symbol.T 'a') = Symbol.N c ∧ Symbol.N c ∈ f := by
  obtain ⟨s, hs, hnt⟩ := exists_nonterminal_of_not_all h
  have hlt : f.reverse.findIdx Symbol.isNonterminal < f.reverse.length :=
    List.findIdx_lt_length_of_exists ⟨s, List.mem_reverse.mpr hs, hnt⟩
  have hget : Symbol.isNonterminal
      (f.reverse.get ⟨f.reverse.findIdx Symbol.isNonterminal, hlt⟩) = true :=
    List.findIdx_get
  have hlt2 : f.reverse.findIdx Symbol.isNonterminal < f.length := by
    rwa [List.length_reverse] at hlt
  have hlt3 : f.length - 1 - f.reverse.findIdx Symbol.isNonterminal < f.length := by
    omega
  have hrev : f.reverse.get ⟨f.reverse.findIdx Symbol.isNonterminal, hlt⟩ =
      f.get ⟨f.length - 1 - f.reverse.findIdx Symbol.isNonterminal, hlt3⟩ :=
    List.get_reverse' f _ hlt3
  have hgd : f.getD (rightmostNT f) (Symbol.T 'a') =
      f.get ⟨f.length - 1 - f.reverse.findIdx Symbol.isNonterminal, hlt3⟩ :=
    List.getD_eq_get f (Symbol.T 'a') hlt3
  refine ⟨hlt3, ?_⟩
  cases hg : f.get ⟨f.length - 1 - f.reverse.findIdx Symbol.isNonterminal, hlt3⟩ with
  | T c =>
      rw [hrev, hg] at hget
      exact absurd hget (by simp [Symbol.isNonterminal])
  | N c =>
      refine ⟨c, by rw [hgd, hg], ?_⟩
      rw [← hg]
      exact List.get_mem f _ hlt3

theorem expandAt_ne_nil {f : List Symbol} {idx : Nat} {alt : List Symbol}
    (h : alt ≠ []) : expandAt f idx alt ≠ [] := by
  unfold expandAt
  intro hcon
  rw [List.append_eq_nil, List.append_eq_nil] at hcon
  exact h hcon.1.2

theorem mem_expandAt {f : List Symbol} {idx : Nat} {alt : List Symbol}
    {s : Symbol} (h : s ∈ expandAt f idx alt) : s ∈ f ∨ s ∈ alt := by
  unfold expandAt at h
  rcases List.mem_append.mp h with h1 | h1
  · rcases List.mem_append.mp h1 with h2 | h2
    · exact Or.inl (List.take_subset idx f h2)
    · exact Or.inr h2
  · exact Or.inl (List.drop_subset _ f h1)

/-- Safety invariant of the generator run: if every alternative stored
for a reachable-in-forms nonterminal is nonempty and mentions only such
nonterminals, and every worklist form is nonempty with only such
nonterminals, then every yielded string has length within the bounds. -/
theorem runG_bounds {lft : Bool} {rules : List (Symbol × List (List Symbol))}
    {minL maxL : Nat} {P : Char → Prop}
    (HR : ∀ c, P c → ∃ alts, rules.lookup (Symbol.N c) = some alts ∧
      ∀ alt ∈ alts, alt ≠ [] ∧ ∀ d, Symbol.N d ∈ alt → P d) :
    ∀ (fuel : Nat) (q : List (List Symbol)),
      (∀ f ∈ q, f ≠ [] ∧ ∀ c, Symbol.N c ∈ f → P c) →
      ∀ s ∈ (runG lft rules minL maxL fuel q).1,
        minL ≤ s.length ∧ s.length ≤ maxL := by
  intro fuel
  induction fuel with
  | zero =>
      intro q hq s hs
      cases q with
      | nil => simp [runG] at hs
      | cons f q2 => simp [runG] at hs
  | succ m ih =>
      intro q hq s hs
      cases q with
      | nil => simp [runG] at hs
      | cons f q2 =>
          have hf := hq f (List.mem_cons_self f q2)
          have hq2 : ∀ f2 ∈ q2, f2 ≠ [] ∧ ∀ c, Symbol.N c ∈ f2 → P c :=
            fun f2 h2 => hq f2 (List.mem_cons_of_mem f h2)
          simp only [runG] at hs
          rw [if_neg hf.1] at hs
          by_cases hlen : maxL < f.length
          · rw [if_pos hlen] at hs
            exact ih q2 hq2 s hs
          · rw [if_neg hlen] at hs
            by_cases hterm : f.all (fun x => x.isTerminal) = true
            · rw [if_pos hterm] at hs
              by_cases hmin : minL ≤ f.length
              · rw [if_pos hmin] at hs
                rcases List.mem_cons.mp hs with h1 | h1
                · subst h1
                  exact ⟨hmin, Nat.le_of_not_lt hlen⟩
                · exact ih q2 hq2 s h1
              · rw [if_neg hmin] at hs
                exact ih q2 hq2 s hs
            · rw [if_neg hterm] at hs
              have hterm2 : f.all Symbol.isTerminal = false := by
                cases hb : f.all Symbol.isTerminal with
                | false => rfl
                | true => exact absurd hb hterm
              have hidx : ∃ c, f.getD (if lft then leftmostNT f else rightmostNT f)
                  (Symbol.T 'a') = Symbol.N c ∧ Symbol.N c ∈ f := by
                cases lft with
                | true => simpa using (leftmostNT_spec hterm2).2
                | false => simpa using (rightmostNT_spec hterm2).2
              obtain ⟨c, hc, hcf⟩ := hidx
              obtain ⟨alts, halts, hal⟩ := HR c (hf.2 c hcf)
              rw [hc, halts] at hs
              try dsimp only at hs
              apply ih _ _ s hs
              intro f2 hf2
              rcases List.mem_append.mp hf2 with h2 | h2
              · exact hq2 f2 h2
              · rcases List.mem_map.mp h2 with ⟨alt, halt, heq⟩
                rw [← heq]
                refine ⟨expandAt_ne_nil (hal alt halt).1, ?_⟩
                intro d hd
                rcases mem_expandAt hd with h3 | h3
                · exact hf.2 d h3
                · exact (hal alt halt).2 d h3

/-- The rule index built from a simplified grammar satisfies the
generator safety hypotheses for the nonterminals occurring in right-hand
sides. -/
theorem buildRules_safe {g g1 : CFG} (hsim : simplify g = some g1) :
    ∀ c, occursInRhs g1.productions c →
      ∃ alts, (buildRules g1.productions).lookup (Symbol.N c) = some alts ∧
        ∀ alt ∈ alts, alt ≠ [] ∧
          (∀ d, Symbol.N d ∈ alt → occursInRhs g1.productions d) ∧
          (alt.length = 1 → ∃ t, alt = [Symbol.T t]) := by
  intro c hocc
  obtain ⟨p0, hp0, hc0⟩ := hocc
  obtain ⟨q, hq, hql⟩ := simplify_rhs_has_rule hsim p0 hp0 c hc0
  cases hl : (buildRules g1.productions).lookup (Symbol.N c) with
  | none =>
      have hmem : q.right ∈
          (((buildRules g1.productions).lookup (Symbol.N c)).getD []) :=
        mem_buildRules.mpr ⟨q, hq, by rw [hql], rfl⟩
      rw [hl] at hmem
      exact absurd hmem (List.not_mem_nil _)
  | some alts =>
      refine ⟨alts, rfl, ?_⟩
      intro alt halt
      have hmem : alt ∈
          (((buildRules g1.productions).lookup (Symbol.N c)).getD []) := by
        rw [hl]
        exact halt
      obtain ⟨r, hr, hkey, hralt⟩ := mem_buildRules.mp hmem
      have hrl : r.left = c := by injection hkey
      refine ⟨?_, ?_, ?_⟩
      · intro hnil
        rw [← hralt] at hnil
        have h1 := (simplify_eps_left hsim hr hnil).1
        rw [hrl] at h1
        exact h1 p0 hp0 hc0
      · intro d hd
        rw [← hralt] at hd
        exact ⟨r, hr, hd⟩
      · intro hlen1
        obtain ⟨x, hx⟩ := List.length_eq_one.mp hlen1
        cases x with
        | T t => exact ⟨t, hx⟩
        | N d =>
            have hu := simplify_unitFree hsim r hr
            unfold isUnit at hu
            rw [hralt, hx] at hu
            simp at hu

/-- The initial worklist of the generator satisfies the safety
invariant. -/
theorem init_queue_safe {g g1 : CFG} (hsim : simplify g = some g1) :
    ∀ f ∈ (((buildRules g1.productions).lookup (Symbol.N g.start)).getD []),
      f ≠ [] ∧ ∀ c, Symbol.N c ∈ f → occursInRhs g1.productions c := by
  intro f hfq
  obtain ⟨p, hp, hkey, hpr⟩ := mem_buildRules.mp hfq
  have hpl : p.left = g.start := by injection hkey
  constructor
  · intro hnil
    rw [← hpr] at hnil
    exact (simplify_eps_left hsim hp hnil).2 hpl
  · intro c hc
    rw [← hpr] at hc
    exact ⟨p, hp, hc⟩

/-- C1: every string yielded by the generator (for any amount of fuel,
hence by any run of the Rust iterator) has length between `min_len` and
`max_len`; in particular the unconditional empty-form yield never fires,
because no reachable worklist form is ever empty. -/
theorem c1_generator_bounds (g : CFG) (lmin lmax : Nat) (lft : Bool)
    (st : GenState) (fuel : Nat) (s : List Symbol)
    (hg : generatorNew g lmin lmax lft = some st)
    (hs : s ∈ (runG st.lft st.rules st.minL st.maxL fuel st.queue).1) :
    lmin ≤ s.length ∧ s.length ≤ lmax := by
  cases hsim : simplify g with
  | none => rw [generatorNew, hsim] at hg; exact absurd hg (by simp)
  | some g1 =>
      simp only [generatorNew, hsim] at hg
      have hqd : st = ⟨lft, buildRules g1.productions, lmin, lmax,
          (((buildRules g1.productions).lookup (Symbol.N g.start)).getD [])⟩ := by
        cases hl : (buildRules g1.productions).lookup (Symbol.N g.start) with
        | none =>
            rw [hl] at hg
            simp only [Option.some.injEq] at hg
            rw [← hg]
            rfl
        | some cases1 =>
            rw [hl] at hg
            simp only [Option.some.injEq] at hg
            rw [← hg]
            rfl
      rw [hqd] at hs
      refine runG_bounds ?_ fuel _ (init_queue_safe hsim) s hs
      intro c h
      obtain ⟨alts, h1, h2⟩ := buildRules_safe hsim c h
      exact ⟨alts, h1, fun alt ha => ⟨(h2 alt ha).1, (h2 alt ha).2.1⟩⟩

/-- C1, witness: the theorem applied to the grammar `S -> a` with both
bounds 1; the generated string `a` has length 1. -/
theorem c1_generator_bounds_witness :
    1 ≤ ([Symbol.T 'a'] : List Symbol).length ∧
      ([Symbol.T 'a'] : List Symbol).length ≤ 1 :=
  c1_generator_bounds GW 1 1 true
    ⟨true, [(Symbol.N 'S', [[Symbol.T 'a']])], 1, 1, [[Symbol.T 'a']]⟩ 2
    [Symbol.T 'a'] (by decide) (by decide)

theorem lookup_le_maxAlts {rules : List (Symbol × List (List Symbol))}
    {k : Symbol} {alts : List (List Symbol)} (h : rules.lookup k = some alts) :
    alts.length ≤ maxAlts rules := by
  induction rules with
  | nil => simp [List.lookup] at h
  | cons e es ih =>
      rcases e with ⟨ek, ev⟩
      unfold maxAlts
      rw [List.foldr_cons]
      by_cases hk : k = ek
      · have h2 : ev = alts := by
          simpa [List.lookup, beq_iff_eq.mpr hk] using h
        rw [← h2]
        exact Nat.le_max_left _ _
      · have h2 : es.lookup k = some alts := by
          simpa [List.lookup, beq_eq_false_iff_ne.mpr hk] using h
        exact le_trans (ih h2) (Nat.le_max_right _ _)

theorem rank_arith {M L L' n n' maxL : Nat} (hM : M = maxL + 2)
    (hL : ¬ maxL < L) (hL' : L' ≤ maxL) (hLL : L + 1 ≤ L') (hn' : n' ≤ L') :
    (maxL + 1 - L') * M + n' < (maxL + 1 - L) * M + n := by
  have hxy : (maxL + 1 - L') + 1 ≤ maxL + 1 - L := by omega
  have hn2 : n' ≤ maxL + 1 := by omega
  calc (maxL + 1 - L') * M + n'
      ≤ (maxL + 1 - L') * M + (maxL + 1) := Nat.add_le_add_left hn2 _
    _ < (maxL + 1 - L') * M + M := by omega
    _ = ((maxL + 1 - L') + 1) * M := by ring
    _ ≤ (maxL + 1 - L) * M := Nat.mul_le_mul_right M hxy
    _ ≤ (maxL + 1 - L) * M + n := Nat.le_add_right _ _

theorem rank_decrease {maxL : Nat} {u v alt : List Symbol} {c : Char}
    (hlen : ¬ maxL < (u ++ Symbol.N c :: v).length)
    (ha : alt ≠ [])
    (hunit : alt.length = 1 → ∃ t, alt = [Symbol.T t]) :
    formRank maxL (u ++ (alt ++ v)) < formRank maxL (u ++ Symbol.N c :: v) := by
  have ha1 : 1 ≤ alt.length := List.length_pos.mpr ha
  unfold formRank
  rw [if_neg hlen]
  by_cases h1 : alt.length = 1
  · obtain ⟨t, ht⟩ := hunit h1
    subst ht
    have hLL : (u ++ ([Symbol.T t] ++ v)).length = (u ++ Symbol.N c :: v).length := by
      simp
    rw [if_neg (by rw [hLL]; exact hlen), hLL]
    apply Nat.add_lt_add_left
    have e1 : ((u ++ ([Symbol.T t] ++ v)).filter Symbol.isNonterminal).length =
        (u.filter Symbol.isNonterminal).length +
          (v.filter Symbol.isNonterminal).length := by
      simp [List.filter_append, List.filter_cons, Symbol.isNonterminal]
    have e2 : ((u ++ Symbol.N c :: v).filter Symbol.isNonterminal).length =
        (u.filter Symbol.isNonterminal).length +
          ((v.filter Symbol.isNonterminal).length + 1) := by
      simp [List.filter_append, List.filter_cons, Symbol.isNonterminal]
    rw [e1, e2]
    omega
  · have h2 : 2 ≤ alt.length := by omega
    by_cases h3 : maxL < (u ++ (alt ++ v)).length
    · rw [if_pos h3]
      have hpos : 0 <
          ((u ++ Symbol.N c :: v).filter Symbol.isNonterminal).length := by
        have e2 : ((u ++ Symbol.N c :: v).filter Symbol.isNonterminal).length =
            (u.filter Symbol.isNonterminal).length +
              ((v.filter Symbol.isNonterminal).length + 1) := by
          simp [List.filter_append, List.filter_cons, Symbol.isNonterminal]
        omega
      exact Nat.lt_of_lt_of_le hpos (Nat.le_add_left _ _)
    · rw [if_neg h3]
      apply rank_arith rfl hlen (Nat.le_of_not_lt h3)
      · have e1 : (u ++ Symbol.N c :: v).length = u.length + v.length + 1 := by
          simp
          omega
        have e2 : (u ++ (alt ++ v)).length =
            u.length + alt.length + v.length := by
          simp
          omega
        omega
      · exact List.length_filter_le _ _

theorem expand_rank_lt {maxL : Nat} {f alt : List Symbol} {idx : Nat} {c : Char}
    (hidx : idx < f.length)
    (hget : f.getD idx (Symbol.T 'a') = Symbol.N c)
    (hlen : ¬ maxL < f.length)
    (ha : alt ≠ [])
    (hunit : alt.length = 1 → ∃ t, alt = [Symbol.T t]) :
    formRank maxL (expandAt f idx alt) < formRank maxL f := by
  have hsplit : f = f.take idx ++ (Symbol.N c :: f.drop (idx + 1)) := by
    conv_lhs => rw [← List.take_append_drop idx f]
    congr 1
    rw [List.drop_eq_getElem_cons hidx]
    congr 1
    rw [← List.getD_eq_getElem f (Symbol.T 'a') hidx]
    exact hget
  have he : expandAt f idx alt = f.take idx ++ (alt ++ f.drop (idx + 1)) := by
    unfold expandAt
    rw [List.append_assoc]
  rw [he]
  conv_rhs => rw [hsplit]
  exact rank_decrease (by rw [← hsplit]; exact hlen) ha hunit

theorem queueWeight_append (B maxL : Nat) (a b : List (List Symbol)) :
    queueWeight B maxL (a ++ b) = queueWeight B maxL a + queueWeight B maxL b := by
  simp [queueWeight]

theorem queueWeight_cons (B maxL : Nat) (f : List Symbol)
    (q : List (List Symbol)) :
    queueWeight B maxL (f :: q) = formWeight B maxL f + queueWeight B maxL q := by
  simp [queueWeight]

theorem queueWeight_children_le {B maxL : Nat} {f : List Symbol} {idx : Nat}
    {alts : List (List Symbol)} (hB : 1 ≤ B)
    (hrk : ∀ alt ∈ alts, formRank maxL (expandAt f idx alt) < formRank maxL f) :
    queueWeight B maxL (alts.map (expandAt f idx)) ≤
      alts.length * B ^ (formRank maxL f) := by
  unfold queueWeight
  rw [List.map_map]
  have hbnd : ∀ x ∈ alts.map (formWeight B maxL ∘ expandAt f idx),
      x ≤ B ^ (formRank maxL f) := by
    intro x hx
    rcases List.mem_map.mp hx with ⟨alt, halt, heq⟩
    rw [← heq]
    show formWeight B maxL (expandAt f idx alt) ≤ _
    unfold formWeight
    exact Nat.pow_le_pow_right hB (hrk alt halt)
  have h2 := List.sum_le_card_nsmul _ _ hbnd
  simpa [smul_eq_mul, List.length_map] using h2

theorem runG_ok {lft : Bool} {rules : List (Symbol × List (List Symbol))}
    {minL maxL : Nat} {P : Char → Prop}
    (HR : ∀ c, P c → ∃ alts, rules.lookup (Symbol.N c) = some alts ∧
      ∀ alt ∈ alts, alt ≠ [] ∧ (∀ d, Symbol.N d ∈ alt → P d) ∧
        (alt.length = 1 → ∃ t, alt = [Symbol.T t])) :
    ∀ (fuel : Nat) (q : List (List Symbol)),
      (∀ f ∈ q, f ≠ [] ∧ ∀ c, Symbol.N c ∈ f → P c) →
      queueWeight (maxAlts rules + 2) maxL q ≤ fuel →
      (runG lft rules minL maxL fuel q).2 = RunEnd.ok := by
  intro fuel
  induction fuel with
  | zero =>
      intro q hq hw
      cases q with
      | nil => simp [runG]
      | cons f q2 =>
          exfalso
          rw [queueWeight_cons] at hw
          have h1 : 1 ≤ formWeight (maxAlts rules + 2) maxL f := by
            unfold formWeight
            exact Nat.one_le_pow _ _ (by omega)
          omega
  | succ m ih =>
      intro q hq hw
      cases q with
      | nil => simp [runG]
      | cons f q2 =>
          have hf := hq f (List.mem_cons_self f q2)
          have hq2 : ∀ f2 ∈ q2, f2 ≠ [] ∧ ∀ c, Symbol.N c ∈ f2 → P c :=
            fun f2 h2 => hq f2 (List.mem_cons_of_mem f h2)
          rw [queueWeight_cons] at hw
          have h1 : 1 ≤ formWeight (maxAlts rules + 2) maxL f := by
            unfold formWeight
            exact Nat.one_le_pow _ _ (by omega)
          have hwq2 : queueWeight (maxAlts rules + 2) maxL q2 ≤ m := by omega
          simp only [runG]
          rw [if_neg hf.1]
          by_cases hlen : maxL < f.length
          · rw [if_pos hlen]
            exact ih q2 hq2 hwq2
          · rw [if_neg hlen]
            by_cases hterm : f.all (fun x => x.isTerminal) = true
            · rw [if_pos hterm]
              by_cases hmin : minL ≤ f.length
              · rw [if_pos hmin]
                exact ih q2 hq2 hwq2
              · rw [if_neg hmin]
                exact ih q2 hq2 hwq2
            · rw [if_neg hterm]
              have hterm2 : f.all Symbol.isTerminal = false := by
                cases hb : f.all Symbol.isTerminal with
                | false => rfl
                | true => exact absurd hb hterm
              have hspec : (if lft then leftmostNT f else rightmostNT f) <
                  f.length ∧
                  ∃ c, f.getD (if lft then leftmostNT f else rightmostNT f)
                    (Symbol.T 'a') = Symbol.N c ∧ Symbol.N c ∈ f := by
                cases lft with
                | true => simpa using leftmostNT_spec hterm2
                | false => simpa using rightmostNT_spec hterm2
              obtain ⟨hidx, c, hc, hcf⟩ := hspec
              obtain ⟨alts, halts, hal⟩ := HR c (hf.2 c hcf)
              rw [hc, halts]
              try dsimp only
              apply ih
              · intro f2 hf2
                rcases List.mem_append.mp hf2 with h2 | h2
                · exact hq2 f2 h2
                · rcases List.mem_map.mp h2 with ⟨alt, halt, heq⟩
                  rw [← heq]
                  refine ⟨expandAt_ne_nil (hal alt halt).1, ?_⟩
                  intro d hd
                  rcases mem_expandAt hd with h3 | h3
                  · exact hf.2 d h3
                  · exact (hal alt halt).2.1 d h3
              · rw [queueWeight_append]
                have hrk : ∀ alt ∈ alts, formRank maxL
                    (expandAt f (if lft then leftmostNT f else rightmostNT f)
                      alt) < formRank maxL f := by
                  intro alt halt
                  exact expand_rank_lt hidx hc hlen (hal alt halt).1
                    (hal alt halt).2.2
                have hch : queueWeight (maxAlts rules + 2) maxL
                    (alts.map (expandAt f
                      (if lft then leftmostNT f else rightmostNT f))) ≤
                    alts.length * (maxAlts rules + 2) ^ formRank maxL f :=
                  queueWeight_children_le (by omega) hrk
                have halen := lookup_le_maxAlts halts
                have hch2 : queueWeight (maxAlts rules + 2) maxL
                    (alts.map (expandAt f
                      (if lft then leftmostNT f else rightmostNT f))) ≤
                    maxAlts rules * (maxAlts rules + 2) ^ formRank maxL f :=
                  le_trans hch (Nat.mul_le_mul_right _ halen)
                have hWpos : 1 ≤ (maxAlts rules + 2) ^ formRank maxL f :=
                  Nat.one_le_pow _ _ (by omega)
                have hBW : formWeight (maxAlts rules + 2) maxL f =
                    maxAlts rules * (maxAlts rules + 2) ^ formRank maxL f +
                      2 * (maxAlts rules + 2) ^ formRank maxL f := by
                  unfold formWeight
                  rw [Nat.pow_succ]
                  ring
                rw [hBW] at hw
                set W := (maxAlts rules + 2) ^ formRank maxL f with hWdef
                set z := maxAlts rules * W with hzdef
                omega

/-- C8: the generator terminates on every simplified grammar: for any
state produced by `Generator::new`, some finite fuel makes the run of
`next` drain the worklist completely (`RunEnd.ok`, the Rust iterator
returning `None`), rather than running forever; the measure is a sum of
exponentials of the ranks of the worklist forms, which drops at every
expansion because simplification removed epsilon and unit productions. -/
theorem c8_generator_terminates (g : CFG) (lmin lmax : Nat) (lft : Bool)
    (st : GenState) (hg : generatorNew g lmin lmax lft = some st) :
    ∃ fuel, (runG st.lft st.rules st.minL st.maxL fuel st.queue).2 =
      RunEnd.ok := by
  cases hsim : simplify g with
  | none => rw [generatorNew, hsim] at hg; exact absurd hg (by simp)
  | some g1 =>
      simp only [generatorNew, hsim] at hg
      have hqd : st = ⟨lft, buildRules g1.productions, lmin, lmax,
          (((buildRules g1.productions).lookup (Symbol.N g.start)).getD [])⟩ := by
        cases hl : (buildRules g1.productions).lookup (Symbol.N g.start) with
        | none =>
            rw [hl] at hg
            simp only [Option.some.injEq] at hg
            rw [← hg]
            rfl
        | some cases1 =>
            rw [hl] at hg
            simp only [Option.some.injEq] at hg
            rw [← hg]
            rfl
      rw [hqd]
      refine ⟨queueWeight (maxAlts (buildRules g1.productions) + 2) lmax
        (((buildRules g1.productions).lookup (Symbol.N g.start)).getD []), ?_⟩
      exact runG_ok (buildRules_safe hsim) _ _ (init_queue_safe hsim) le_rfl

/-- C8, witness: the theorem applied to the grammar `S -> a`; the run
from the initial state drains the queue and ends with `RunEnd.ok`. -/
theorem c8_generator_terminates_witness :
    ∃ fuel, (runG true [(Symbol.N 'S', [[Symbol.T 'a']])] 1 1 fuel
      [[Symbol.T 'a']]).2 = RunEnd.ok :=
  c8_generator_terminates GW 1 1 true
    ⟨true, [(Symbol.N 'S', [[Symbol.T 'a']])], 1, 1, [[Symbol.T 'a']]⟩
    (by decide)

end PLT
